import Mathlib

/-!
Verification of the GAP image codec core (Zig math core + Go engine).

The development shallowly embeds the functions of
src/core/src/entropy.zig, src/core/src/gradient.zig, src/core/src/pltm.zig,
src/core/src/root.zig and src/engine/decoder.go.

Machine floats (f32/float64) are modelled as exact rationals or reals;
machine integers as Nat/Int with explicit wrap-around where the source
can overflow.  Transcendental values that a claim does not depend on
(the f32 cosine/sine of the 256 quantized angles) are abstracted as an
arbitrary projection parameter, so theorems about them hold for every
possible table of projection values, in particular for the values the
Zig compiler computes at comptime.
-/

set_option maxRecDepth 10000

namespace GAP

/-! ## Permutation table (src/core/src/gradient.zig, angle_map_table)

The comptime table builder creates, for each angle index i, the 64
entries (proj, index) where proj = x·cos(angle_i) + y·sin(angle_i)
for the pixel with linear index idx = y*8+x, then sorts them with
std.sort.block (a stable sort) under Entry.lessThan and stores the
index fields.  The f32 projection values are abstracted as a function
parameter: every theorem below is proved for all projection tables,
hence in particular for the comptime-computed one. -/

/-- An entry of the comptime sort: projection value and original linear
pixel index, as in gradient.zig's Entry struct. -/
def EntryT : Type := ℚ × ℕ

/-- Entry.lessThan from gradient.zig: order by projection, with the
original index as tie-break. -/
def entryLessThan (a b : EntryT) : Prop :=
  if a.1 ≠ b.1 then a.1 < b.1 else a.2 < b.2

instance : DecidableRel entryLessThan := by
  intro a b
  unfold entryLessThan
  infer_instance

/-- The 64 entries built for one angle index: pixel idx = y*8+x paired
with its projection value (abstracted as proj idx). -/
def angleEntries (proj : ℕ → ℚ) : List EntryT :=
  (List.range 64).map (fun idx => (proj idx, idx))

/-- One row of angle_map_table: the original indices in sorted order.
std.sort.block is a stable sort; it is modelled by insertionSort (also
stable) — which sort is used does not affect any theorem below. -/
def angleMapRow (proj : ℕ → ℚ) : List ℕ :=
  (List.insertionSort entryLessThan (angleEntries proj)).map Prod.snd

/-- The full table: row i uses the projections for angle index i. -/
def angleMapTable (proj : ℕ → ℕ → ℚ) (i : ℕ) : List ℕ :=
  angleMapRow (proj i)

theorem angleMapRow_perm (proj : ℕ → ℚ) :
    (angleMapRow proj).Perm (List.range 64) := by
  have h : (List.insertionSort entryLessThan (angleEntries proj)).Perm
      (angleEntries proj) := List.perm_insertionSort _ _
  have h2 := h.map Prod.snd
  unfold angleMapRow
  refine h2.trans ?_
  unfold angleEntries
  simp [List.map_map]
  exact List.Perm.refl _

/-- C2: every row of the permutation table is a permutation of 0..63 —
each value 0..63 appears exactly once in table row i.  Proved for every
projection table, hence for the comptime f32 one. -/
theorem permutation_table_bijection (proj : ℕ → ℕ → ℚ) (i : ℕ)
    (hi : i < 256) (v : ℕ) (hv : v < 64) :
    (angleMapTable proj i).count v = 1 := by
  have hp := angleMapRow_perm (proj i)
  have h1 : (List.range 64).count v = 1 :=
    List.count_eq_one_of_mem (List.nodup_range 64) (List.mem_range.2 hv)
  unfold angleMapTable
  rw [hp.count_eq, h1]

/-- Witness for C2 at a concrete projection table, angle index and value. -/
theorem permutation_table_bijection_witness :
    (0 : ℕ) < 256 ∧ (0 : ℕ) < 64 ∧
      (angleMapTable (fun _ _ => 0) 0).count 0 = 1 :=
  ⟨by norm_num, by norm_num,
    permutation_table_bijection (fun _ _ => 0) 0 (by norm_num) 0 (by norm_num)⟩

/-! ## Gradient analyzer (src/core/src/gradient.zig, compute_gradient)

f32 samples are modelled as reals.  Zig's math.atan2 on reals agrees
with the complex argument: atan2(y, x) = arg(x + i·y), and
atan2(0, 0) = 0 = arg 0 (Zig returns +0 for atan2(+0, +0)). -/

/-- Two-argument arctangent, atan2(y, x) = arg(x + i·y). -/
noncomputable def atan2 (y x : ℝ) : ℝ :=
  Complex.arg ⟨x, y⟩

/-- GradientResult from gradient.zig. -/
structure GradientResult where
  dx : ℝ
  dy : ℝ
  magnitude : ℝ
  angle : ℝ

/-- Sum of the 56 horizontal forward differences (y in 0..7, x in 0..6):
patch[y*8+x+1] - patch[y*8+x]. -/
noncomputable def sumDx (patch : ℕ → ℝ) : ℝ :=
  ∑ y ∈ Finset.range 8, ∑ x ∈ Finset.range 7,
    (patch (y * 8 + x + 1) - patch (y * 8 + x))

/-- Sum of the 56 vertical forward differences (y in 0..6, x in 0..7):
patch[(y+1)*8+x] - patch[y*8+x]. -/
noncomputable def sumDy (patch : ℕ → ℝ) : ℝ :=
  ∑ y ∈ Finset.range 7, ∑ x ∈ Finset.range 8,
    (patch ((y + 1) * 8 + x) - patch (y * 8 + x))

/-- compute_gradient from gradient.zig: a total pure function of the 64
samples (indices 0..63 of the patch function). -/
noncomputable def computeGradient (patch : ℕ → ℝ) : GradientResult :=
  let avg_dx := sumDx patch / 56.0
  let avg_dy := sumDy patch / 56.0
  let mag := Real.sqrt (avg_dx * avg_dx + avg_dy * avg_dy)
  let ang := atan2 avg_dy avg_dx
  ⟨avg_dx, avg_dy, mag, ang⟩

/-- C9: compute_gradient returns the averaged forward differences over
56 pairs, the Euclidean magnitude and the atan2 angle, it is total (a
Lean function, no failure mode), and a flat patch yields the zero
gradient with angle atan2(0,0) = 0. -/
theorem compute_gradient_spec (patch : ℕ → ℝ) :
    (computeGradient patch).dx = sumDx patch / 56 ∧
    (computeGradient patch).dy = sumDy patch / 56 ∧
    (computeGradient patch).magnitude =
      Real.sqrt ((computeGradient patch).dx ^ 2 + (computeGradient patch).dy ^ 2) ∧
    (computeGradient patch).angle =
      atan2 ((computeGradient patch).dy) ((computeGradient patch).dx) ∧
    (∀ c : ℝ, (∀ i, i < 64 → patch i = c) →
      computeGradient patch = ⟨0, 0, 0, 0⟩) := by
  refine ⟨by norm_num [computeGradient], by norm_num [computeGradient],
    by simp [computeGradient, sq], by simp [computeGradient], ?_⟩
  intro c hc
  have hdx : sumDx patch = 0 := by
    unfold sumDx
    refine Finset.sum_eq_zero (fun y hy => Finset.sum_eq_zero (fun x hx => ?_))
    have hy8 := Finset.mem_range.1 hy
    have hx7 := Finset.mem_range.1 hx
    rw [hc (y * 8 + x + 1) (by omega), hc (y * 8 + x) (by omega)]
    ring
  have hdy : sumDy patch = 0 := by
    unfold sumDy
    refine Finset.sum_eq_zero (fun y hy => Finset.sum_eq_zero (fun x hx => ?_))
    have hy7 := Finset.mem_range.1 hy
    have hx8 := Finset.mem_range.1 hx
    rw [hc ((y + 1) * 8 + x) (by omega), hc (y * 8 + x) (by omega)]
    ring
  have harg : atan2 0 0 = 0 := by
    have h0 : ((⟨0, 0⟩ : ℂ)) = 0 := Complex.ext rfl rfl
    unfold atan2
    rw [h0]
    exact Complex.arg_zero
  unfold computeGradient
  rw [hdx, hdy]
  simp [harg]

/-! ## Polylog spectral filters (src/core/src/pltm.zig)

f32 values are modelled as reals.  weight_table[s_idx][k] = k^(-s) and
inv_weight_table[s_idx][k] = k^(+s) with s = s_idx·0.1 (1.0 at k = 0);
the filters touch bins 1..63 only. -/

/-- s_idx = intFromFloat(min(max(s*10, 0), 63)): truncation of a value
already clamped to [0, 63], i.e. the floor. -/
noncomputable def sIdxOf (s : ℝ) : ℕ :=
  (⌊min (max (s * 10.0) 0) 63⌋).toNat

/-- weight_table entry: 1 at k = 0, k^(-s_idx·0.1) for k ≥ 1. -/
noncomputable def polylogWeight (sIdx k : ℕ) : ℝ :=
  if k = 0 then 1 else (k : ℝ) ^ (-((sIdx : ℝ) * 0.1))

/-- inv_weight_table entry: 1 at k = 0, k^(+s_idx·0.1) for k ≥ 1. -/
noncomputable def invPolylogWeight (sIdx k : ℕ) : ℝ :=
  if k = 0 then 1 else (k : ℝ) ^ ((sIdx : ℝ) * 0.1)

/-- apply_polylog_filter: multiply bins 1..63 by the forward weight. -/
noncomputable def applyPolylogFilter (coeffs : Fin 64 → ℝ × ℝ) (s : ℝ) :
    Fin 64 → ℝ × ℝ :=
  fun k =>
    if (k : ℕ) = 0 then coeffs k
    else ((coeffs k).1 * polylogWeight (sIdxOf s) (k : ℕ),
          (coeffs k).2 * polylogWeight (sIdxOf s) (k : ℕ))

/-- re·re + im·im, the squared magnitude of a complex coefficient. -/
noncomputable def magSq (c : ℝ × ℝ) : ℝ :=
  c.1 * c.1 + c.2 * c.2

/-- Multiply both components of a coefficient by a scalar. -/
noncomputable def scaleC (c : ℝ × ℝ) (w : ℝ) : ℝ × ℝ :=
  (c.1 * w, c.2 * w)

/-- The per-bin body of apply_inverse_polylog_filter for k ≥ 1: zero the
coefficient if mag_sq ≤ floor_sq, otherwise multiply by the inverse
weight w and, if the resulting squared magnitude exceeds 4.0², rescale
by 4.0/√res_mag_sq. -/
noncomputable def fwsmStep (w floorSq : ℝ) (c : ℝ × ℝ) : ℝ × ℝ :=
  if magSq c > floorSq then
    (if magSq (scaleC c w) > 4.0 * 4.0 then
      scaleC (scaleC c w) (4.0 / Real.sqrt (magSq (scaleC c w)))
    else scaleC c w)
  else (0, 0)

/-- apply_inverse_polylog_filter: bin 0 untouched; bins 1..63 go through
the FWSM body with noise floor 0.0001·√k. -/
noncomputable def applyInversePolylogFilter (coeffs : Fin 64 → ℝ × ℝ) (s : ℝ) :
    Fin 64 → ℝ × ℝ :=
  fun k =>
    if (k : ℕ) = 0 then coeffs k
    else fwsmStep (invPolylogWeight (sIdxOf s) (k : ℕ))
      ((0.0001 * Real.sqrt ((k : ℕ) : ℝ)) * (0.0001 * Real.sqrt ((k : ℕ) : ℝ)))
      (coeffs k)

theorem sIdxOf_zero : sIdxOf 0 = 0 := by
  norm_num [sIdxOf]

/-- The concrete coefficient vector used to separate the inverse filter
from the identity: bin 1 holds (0.00005, 0), all other bins are zero. -/
noncomputable def smallCoeffs : Fin 64 → ℝ × ℝ :=
  fun k => if (k : ℕ) = 1 then (0.00005, 0) else (0, 0)

theorem smallCoeffs_one : smallCoeffs ⟨1, by norm_num⟩ = (0.00005, 0) := by
  simp [smallCoeffs]

theorem inv_filter_smallCoeffs : applyInversePolylogFilter smallCoeffs 0 ⟨1, by norm_num⟩ = (0, 0) := by
  unfold applyInversePolylogFilter
  rw [if_neg (by norm_num), smallCoeffs_one]
  unfold fwsmStep
  rw [if_neg]
  show ¬ (magSq (0.00005, 0) >
    (0.0001 * Real.sqrt (((1 : Fin 64) : ℕ) : ℝ)) * (0.0001 * Real.sqrt (((1 : Fin 64) : ℕ) : ℝ)))
  have h1 : (((1 : Fin 64) : ℕ) : ℝ) = 1 := by norm_num
  rw [h1, Real.sqrt_one]
  norm_num [magSq]

/-- C3 counterexample: at s = 0 (sIdx = 0) the inverse polylog filter is
not the identity — the FWSM noise floor zeroes bin 1 of smallCoeffs. -/
theorem polylog_identity_s0_counterexample :
    ¬ (∀ k, applyPolylogFilter smallCoeffs 0 k = smallCoeffs k ∧
            applyInversePolylogFilter smallCoeffs 0 k = smallCoeffs k) := by
  intro h
  have h2 := (h ⟨1, by norm_num⟩).2
  rw [inv_filter_smallCoeffs, smallCoeffs_one] at h2
  have h3 : (0 : ℝ) = 0.00005 := congrArg Prod.fst h2
  norm_num at h3

/-- C3 (amended): when sIdx(s) = 0 the forward polylog filter is the
identity on all 64 coefficients; the inverse filter is the identity only
on bins that clear the FWSM noise floor and do not exceed the 4.0
impulse cap (bin 0 is always untouched). -/
theorem polylog_filters_s0 (s : ℝ) (hs : sIdxOf s = 0) :
    (∀ (coeffs : Fin 64 → ℝ × ℝ) (k : Fin 64),
      applyPolylogFilter coeffs s k = coeffs k) ∧
    (∀ (coeffs : Fin 64 → ℝ × ℝ) (k : Fin 64), (k : ℕ) ≠ 0 →
      (0.0001 * Real.sqrt ((k : ℕ) : ℝ)) * (0.0001 * Real.sqrt ((k : ℕ) : ℝ)) <
        (coeffs k).1 * (coeffs k).1 + (coeffs k).2 * (coeffs k).2 →
      (coeffs k).1 * (coeffs k).1 + (coeffs k).2 * (coeffs k).2 ≤ 4.0 * 4.0 →
      applyInversePolylogFilter coeffs s k = coeffs k) := by
  have hw : ∀ k : ℕ, k ≠ 0 → polylogWeight (sIdxOf s) k = 1 := by
    intro k hk
    rw [hs]
    unfold polylogWeight
    rw [if_neg hk]
    norm_num
  have hw2 : ∀ k : ℕ, k ≠ 0 → invPolylogWeight (sIdxOf s) k = 1 := by
    intro k hk
    rw [hs]
    unfold invPolylogWeight
    rw [if_neg hk]
    norm_num
  constructor
  · intro coeffs k
    unfold applyPolylogFilter
    by_cases hk : (k : ℕ) = 0
    · rw [if_pos hk]
    · rw [if_neg hk, hw _ hk]
      simp
  · intro coeffs k hk hfloor hcap
    unfold applyInversePolylogFilter
    rw [if_neg hk]
    unfold fwsmStep
    rw [hw2 _ hk]
    rw [if_pos (by simpa [magSq] using hfloor)]
    rw [if_neg (by simpa [magSq, scaleC] using not_lt.2 hcap)]
    simp [scaleC]

/-- Witness for the amended C3 at the concrete parameter s = 0. -/
theorem polylog_filters_s0_witness :
    sIdxOf 0 = 0 ∧
    ((∀ (coeffs : Fin 64 → ℝ × ℝ) (k : Fin 64),
      applyPolylogFilter coeffs 0 k = coeffs k) ∧
    (∀ (coeffs : Fin 64 → ℝ × ℝ) (k : Fin 64), (k : ℕ) ≠ 0 →
      (0.0001 * Real.sqrt ((k : ℕ) : ℝ)) * (0.0001 * Real.sqrt ((k : ℕ) : ℝ)) <
        (coeffs k).1 * (coeffs k).1 + (coeffs k).2 * (coeffs k).2 →
      (coeffs k).1 * (coeffs k).1 + (coeffs k).2 * (coeffs k).2 ≤ 4.0 * 4.0 →
      applyInversePolylogFilter coeffs 0 k = coeffs k)) :=
  ⟨sIdxOf_zero, polylog_filters_s0 0 sIdxOf_zero⟩

theorem magSq_scaleC (c : ℝ × ℝ) (w : ℝ) : magSq (scaleC c w) = magSq c * (w * w) := by
  unfold magSq scaleC
  ring

/-- C8: behaviour of the inverse polylog filter (FWSM) on every bin
k in 1..63: coefficients at or below the noise floor 0.0001·√k are
zeroed exactly; the rest are multiplied by k^(s_q) with s_q =
sIdx·0.1 and, when the squared result exceeds 4.0², rescaled by
4.0/√res_mag_sq so the magnitude becomes exactly 4.0; bin 0 is never
modified. -/
theorem fwsm_inverse_filter_spec (coeffs : Fin 64 → ℝ × ℝ) (s : ℝ) :
    applyInversePolylogFilter coeffs s ⟨0, by norm_num⟩ = coeffs ⟨0, by norm_num⟩ ∧
    (∀ k : Fin 64, 1 ≤ (k : ℕ) →
      (magSq (coeffs k) ≤
          (0.0001 * Real.sqrt ((k : ℕ) : ℝ)) * (0.0001 * Real.sqrt ((k : ℕ) : ℝ)) →
        applyInversePolylogFilter coeffs s k = (0, 0)) ∧
      ((0.0001 * Real.sqrt ((k : ℕ) : ℝ)) * (0.0001 * Real.sqrt ((k : ℕ) : ℝ)) <
          magSq (coeffs k) →
        invPolylogWeight (sIdxOf s) (k : ℕ) = ((k : ℕ) : ℝ) ^ ((sIdxOf s : ℝ) * 0.1) ∧
        (magSq (scaleC (coeffs k) (invPolylogWeight (sIdxOf s) (k : ℕ))) ≤ 4.0 * 4.0 →
          applyInversePolylogFilter coeffs s k =
            scaleC (coeffs k) (invPolylogWeight (sIdxOf s) (k : ℕ))) ∧
        (4.0 * 4.0 < magSq (scaleC (coeffs k) (invPolylogWeight (sIdxOf s) (k : ℕ))) →
          applyInversePolylogFilter coeffs s k =
            scaleC (scaleC (coeffs k) (invPolylogWeight (sIdxOf s) (k : ℕ)))
              (4.0 / Real.sqrt (magSq (scaleC (coeffs k) (invPolylogWeight (sIdxOf s) (k : ℕ))))) ∧
          Real.sqrt (magSq (applyInversePolylogFilter coeffs s k)) = 4.0))) := by
  constructor
  · unfold applyInversePolylogFilter
    rw [if_pos rfl]
  · intro k hk
    have hk0 : (k : ℕ) ≠ 0 := by omega
    constructor
    · intro hfloor
      unfold applyInversePolylogFilter
      rw [if_neg hk0]
      unfold fwsmStep
      rw [if_neg (not_lt.2 hfloor)]
    · intro hfloor
      refine ⟨by unfold invPolylogWeight; rw [if_neg hk0], ?_, ?_⟩
      · intro hcap
        unfold applyInversePolylogFilter
        rw [if_neg hk0]
        unfold fwsmStep
        rw [if_pos hfloor, if_neg (not_lt.2 hcap)]
      · intro hcap
        have hout : applyInversePolylogFilter coeffs s k =
            scaleC (scaleC (coeffs k) (invPolylogWeight (sIdxOf s) (k : ℕ)))
              (4.0 / Real.sqrt (magSq (scaleC (coeffs k) (invPolylogWeight (sIdxOf s) (k : ℕ))))) := by
          unfold applyInversePolylogFilter
          rw [if_neg hk0]
          unfold fwsmStep
          rw [if_pos hfloor, if_pos hcap]
        refine ⟨hout, ?_⟩
        rw [hout, magSq_scaleC]
        have hmpos : (0 : ℝ) < magSq (scaleC (coeffs k) (invPolylogWeight (sIdxOf s) (k : ℕ))) := by
          linarith
        have hsq : Real.sqrt (magSq (scaleC (coeffs k) (invPolylogWeight (sIdxOf s) (k : ℕ)))) *
            Real.sqrt (magSq (scaleC (coeffs k) (invPolylogWeight (sIdxOf s) (k : ℕ)))) =
            magSq (scaleC (coeffs k) (invPolylogWeight (sIdxOf s) (k : ℕ))) :=
          Real.mul_self_sqrt (le_of_lt hmpos)
        have hspos : (0 : ℝ) < Real.sqrt (magSq (scaleC (coeffs k) (invPolylogWeight (sIdxOf s) (k : ℕ)))) :=
          Real.sqrt_pos.2 hmpos
        have h16 : magSq (scaleC (coeffs k) (invPolylogWeight (sIdxOf s) (k : ℕ))) *
            (4.0 / Real.sqrt (magSq (scaleC (coeffs k) (invPolylogWeight (sIdxOf s) (k : ℕ)))) *
             (4.0 / Real.sqrt (magSq (scaleC (coeffs k) (invPolylogWeight (sIdxOf s) (k : ℕ)))))) =
            16 := by
          field_simp
          nlinarith [hsq]
        rw [h16]
        rw [show (16 : ℝ) = 4 ^ 2 by norm_num, Real.sqrt_sq (by norm_num)]
        norm_num

/-- Witness for C8: concrete coefficients at s = 0, bin 1 below the
noise floor is zeroed. -/
theorem fwsm_inverse_filter_spec_witness :
    1 ≤ ((⟨1, by norm_num⟩ : Fin 64) : ℕ) ∧
    magSq (smallCoeffs ⟨1, by norm_num⟩) ≤
      (0.0001 * Real.sqrt (((⟨1, by norm_num⟩ : Fin 64) : ℕ) : ℝ)) *
      (0.0001 * Real.sqrt (((⟨1, by norm_num⟩ : Fin 64) : ℕ) : ℝ)) ∧
    applyInversePolylogFilter smallCoeffs 0 ⟨1, by norm_num⟩ = (0, 0) := by
  have hfl : magSq (smallCoeffs ⟨1, by norm_num⟩) ≤
      (0.0001 * Real.sqrt (((⟨1, by norm_num⟩ : Fin 64) : ℕ) : ℝ)) *
      (0.0001 * Real.sqrt (((⟨1, by norm_num⟩ : Fin 64) : ℕ) : ℝ)) := by
    rw [smallCoeffs_one]
    have h1 : (((⟨1, by norm_num⟩ : Fin 64) : ℕ) : ℝ) = 1 := by norm_num
    rw [h1, Real.sqrt_one]
    norm_num [magSq]
  exact ⟨by norm_num,  hfl,
    ((fwsm_inverse_filter_spec smallCoeffs 0).2 ⟨1, by norm_num⟩ (by norm_num)).1 hfl⟩

/-! ## Per-patch stream emission (src/engine/decoder.go, gapEncodePlane)

The per-patch emission into the five streams, for one patch whose
compressed coefficients are cCoeffs (64 interleaved (re, im) float32
pairs, modelled as a function ℕ → ℚ × ℚ read at bins 0..63).  Go's
math.Sqrt(re²+im²) > 0 test is embedded as re²+im² > 0 (√x > 0 ⟺ x > 0
for x ≥ 0).  Go's float-to-int8 conversion truncates toward zero. -/

/-- Truncation toward zero, the behaviour of Go's float-to-integer
conversion for in-range values. -/
def ratTrunc (q : ℚ) : ℤ :=
  if 0 ≤ q then ⌊q⌋ else -⌊-q⌋

/-- qRe = int8(re / maxVal * 127.0). -/
def quantize (x mv : ℚ) : ℤ :=
  ratTrunc (x / mv * 127)

/-- One iteration of the MaxVal scan: if the bin is non-zero, raise the
accumulator to abs(re) and then to abs(im) whenever they exceed it. -/
def maxValStep (c : ℚ × ℚ) (acc : ℚ) : ℚ :=
  if c.1 * c.1 + c.2 * c.2 > 0 then
    (if |c.2| > (if |c.1| > acc then |c.1| else acc) then |c.2|
     else (if |c.1| > acc then |c.1| else acc))
  else acc

/-- The MaxVal scan over all 64 bins, starting from 0. -/
def maxValRaw (coeffs : ℕ → ℚ × ℚ) : ℚ :=
  (List.range 64).foldl (fun acc k => maxValStep (coeffs k) acc) 0

/-- MaxVal: the scan result, replaced by 1.0 when it is 0. -/
def maxValOf (coeffs : ℕ → ℚ × ℚ) : ℚ :=
  if maxValRaw coeffs = 0 then 1 else maxValRaw coeffs

/-- One iteration of the emission loop: for a non-zero bin k append k to
Indices, the quantized pair to Values, and increment actualCount. -/
def emitStep (coeffs : ℕ → ℚ × ℚ) (mv : ℚ)
    (acc : List ℕ × List (ℤ × ℤ) × ℕ) (k : ℕ) :
    List ℕ × List (ℤ × ℤ) × ℕ :=
  if (coeffs k).1 * (coeffs k).1 + (coeffs k).2 * (coeffs k).2 > 0 then
    (acc.1 ++ [k],
     acc.2.1 ++ [(quantize (coeffs k).1 mv, quantize (coeffs k).2 mv)],
     acc.2.2 + 1)
  else acc

/-- The per-patch emission loop over bins 0..63: the Indices bytes, the
Values pairs and actualCount produced for this patch. -/
def emitLoop (coeffs : ℕ → ℚ × ℚ) (mv : ℚ) : List ℕ × List (ℤ × ℤ) × ℕ :=
  (List.range 64).foldl (emitStep coeffs mv) ([], [], 0)

/-- The Count byte written for the patch: uint8(actualCount). -/
def countByte (coeffs : ℕ → ℚ × ℚ) : ℕ :=
  (emitLoop coeffs (maxValOf coeffs)).2.2 % 256

theorem emitLoop_foldl (coeffs : ℕ → ℚ × ℚ) (mv : ℚ) (L : List ℕ)
    (i : List ℕ) (v : List (ℤ × ℤ)) (n : ℕ) :
    L.foldl (emitStep coeffs mv) (i, v, n) =
      (i ++ (L.filter (fun k =>
          decide ((coeffs k).1 * (coeffs k).1 + (coeffs k).2 * (coeffs k).2 > 0))),
       v ++ (L.filter (fun k =>
          decide ((coeffs k).1 * (coeffs k).1 + (coeffs k).2 * (coeffs k).2 > 0))).map
          (fun k => (quantize (coeffs k).1 mv, quantize (coeffs k).2 mv)),
       n + (L.filter (fun k =>
          decide ((coeffs k).1 * (coeffs k).1 + (coeffs k).2 * (coeffs k).2 > 0))).length) := by
  induction L generalizing i v n with
  | nil => simp
  | cons hd tl ih =>
      by_cases h : (coeffs hd).1 * (coeffs hd).1 + (coeffs hd).2 * (coeffs hd).2 > 0
      · simp only [List.foldl_cons, emitStep, if_pos h, List.filter_cons,
          decide_eq_true_eq, h, if_pos, ih]
        simp [List.append_assoc]
        omega
      · simp only [List.foldl_cons, emitStep, if_neg h, List.filter_cons,
          decide_eq_true_eq, h, if_neg, ih]
        simp [h]

theorem emitLoop_eq (coeffs : ℕ → ℚ × ℚ) (mv : ℚ) :
    emitLoop coeffs mv =
      (((List.range 64).filter (fun k =>
          decide ((coeffs k).1 * (coeffs k).1 + (coeffs k).2 * (coeffs k).2 > 0))),
       ((List.range 64).filter (fun k =>
          decide ((coeffs k).1 * (coeffs k).1 + (coeffs k).2 * (coeffs k).2 > 0))).map
          (fun k => (quantize (coeffs k).1 mv, quantize (coeffs k).2 mv)),
       ((List.range 64).filter (fun k =>
          decide ((coeffs k).1 * (coeffs k).1 + (coeffs k).2 * (coeffs k).2 > 0))).length) := by
  unfold emitLoop
  rw [emitLoop_foldl]
  simp

/-- C7: for every patch the encoder emits, the bin indices appended to
the Indices stream are strictly increasing, the Count byte equals the
number of (index, value-pair) triplets emitted, and there is exactly one
value pair per emitted index. -/
theorem bin_ordering_and_count (coeffs : ℕ → ℚ × ℚ) :
    List.Pairwise (· < ·) (emitLoop coeffs (maxValOf coeffs)).1 ∧
    countByte coeffs = (emitLoop coeffs (maxValOf coeffs)).1.length ∧
    (emitLoop coeffs (maxValOf coeffs)).2.1.length =
      (emitLoop coeffs (maxValOf coeffs)).1.length := by
  rw [emitLoop_eq, countByte, emitLoop_eq]
  dsimp only
  refine ⟨?_, ?_, by simp⟩
  · exact (List.pairwise_lt_range 64).filter _
  · have hle : ((List.range 64).filter (fun k =>
        decide ((coeffs k).1 * (coeffs k).1 + (coeffs k).2 * (coeffs k).2 > 0))).length ≤ 64 := by
      calc ((List.range 64).filter _).length ≤ (List.range 64).length :=
            List.length_filter_le _ _
        _ = 64 := List.length_range 64
    omega

/-- actualCount for a patch: the number of triplets emitted. -/
def actualCount (coeffs : ℕ → ℚ × ℚ) : ℕ :=
  (emitLoop coeffs (maxValOf coeffs)).2.2

theorem maxValStep_le (c : ℚ × ℚ) (acc : ℚ) : acc ≤ maxValStep c acc := by
  unfold maxValStep
  split_ifs <;> linarith

theorem maxValStep_bound (c : ℚ × ℚ) (acc : ℚ)
    (h : c.1 * c.1 + c.2 * c.2 > 0) :
    |c.1| ≤ maxValStep c acc ∧ |c.2| ≤ maxValStep c acc := by
  unfold maxValStep
  rw [if_pos h]
  split_ifs <;> constructor <;> linarith

theorem foldl_maxValStep_ge (coeffs : ℕ → ℚ × ℚ) (L : List ℕ) (acc : ℚ) :
    acc ≤ L.foldl (fun a k => maxValStep (coeffs k) a) acc := by
  induction L generalizing acc with
  | nil => simp
  | cons hd tl ih =>
      calc acc ≤ maxValStep (coeffs hd) acc := maxValStep_le _ _
        _ ≤ _ := ih _

theorem foldl_maxValStep_mem (coeffs : ℕ → ℚ × ℚ) (L : List ℕ) (acc : ℚ)
    (k : ℕ) (hk : k ∈ L)
    (h : (coeffs k).1 * (coeffs k).1 + (coeffs k).2 * (coeffs k).2 > 0) :
    |(coeffs k).1| ≤ L.foldl (fun a j => maxValStep (coeffs j) a) acc ∧
    |(coeffs k).2| ≤ L.foldl (fun a j => maxValStep (coeffs j) a) acc := by
  induction L generalizing acc with
  | nil => cases hk
  | cons hd tl ih =>
      rcases List.mem_cons.1 hk with heq | hmem
      · subst heq
        have hb := maxValStep_bound (coeffs k) acc h
        have hge := foldl_maxValStep_ge coeffs tl (maxValStep (coeffs k) acc)
        exact ⟨le_trans hb.1 hge, le_trans hb.2 hge⟩
      · exact ih _ hmem

theorem foldl_maxValStep_zero (coeffs : ℕ → ℚ × ℚ) (L : List ℕ)
    (h : ∀ k ∈ L, ¬ ((coeffs k).1 * (coeffs k).1 + (coeffs k).2 * (coeffs k).2 > 0)) :
    L.foldl (fun a j => maxValStep (coeffs j) a) 0 = 0 := by
  induction L with
  | nil => rfl
  | cons hd tl ih =>
      have hhd := h hd (List.mem_cons_self hd tl)
      simp only [List.foldl_cons, maxValStep, if_neg hhd]
      exact ih (fun k hk => h k (List.mem_cons_of_mem hd hk))

theorem abs_ratTrunc_le (q : ℚ) : |(ratTrunc q : ℚ)| ≤ |q| := by
  unfold ratTrunc
  by_cases h : 0 ≤ q
  · rw [if_pos h]
    have h0 : (0 : ℤ) ≤ ⌊q⌋ := Int.floor_nonneg.2 h
    rw [abs_of_nonneg (by exact_mod_cast h0), abs_of_nonneg h]
    exact Int.floor_le q
  · rw [if_neg h]
    push_neg at h
    have h0 : (0 : ℤ) ≤ ⌊-q⌋ := Int.floor_nonneg.2 (by linarith)
    rw [abs_of_nonpos (by push_cast; simp; exact_mod_cast h0),
      abs_of_neg h]
    push_cast
    simp only [neg_neg]
    exact Int.floor_le (-q)

theorem quantize_bounds (x mv : ℚ) (hmv : 0 < mv) (hx : |x| ≤ mv) :
    |quantize x mv| ≤ 127 ∧ |(quantize x mv : ℚ) / 127 * mv| ≤ mv := by
  have h1 : |x / mv * 127| ≤ 127 := by
    rw [abs_mul, abs_div, abs_of_pos hmv]
    have : |x| / mv ≤ 1 := by
      rw [div_le_one hmv]
      exact hx
    calc |x| / mv * |(127 : ℚ)| = |x| / mv * 127 := by norm_num
      _ ≤ 1 * 127 := by nlinarith
      _ = 127 := by norm_num
  have h2 : |(quantize x mv : ℚ)| ≤ 127 :=
    le_trans (abs_ratTrunc_le _) h1
  have h3 : |quantize x mv| ≤ 127 := by exact_mod_cast h2
  refine ⟨h3, ?_⟩
  rw [abs_mul, abs_div, abs_of_pos hmv]
  calc |(quantize x mv : ℚ)| / |(127 : ℚ)| * mv ≤ 127 / 127 * mv := by
        rw [show |(127 : ℚ)| = 127 by norm_num]
        nlinarith
    _ = mv := by norm_num

/-- C6: quantization invariant.  If the patch keeps K > 0 bins, MaxVal
is strictly positive and dominates abs(re), abs(im) of every emitted
bin, the quantized components lie in [-127, 127], and the dequantized
values q/127·MaxVal stay within MaxVal in absolute value.  If K = 0,
MaxVal is exactly 1.0. -/
theorem quantization_invariant (coeffs : ℕ → ℚ × ℚ) :
    (0 < actualCount coeffs →
      0 < maxValOf coeffs ∧
      (∀ k, k < 64 →
        (coeffs k).1 * (coeffs k).1 + (coeffs k).2 * (coeffs k).2 > 0 →
        |(coeffs k).1| ≤ maxValOf coeffs ∧ |(coeffs k).2| ≤ maxValOf coeffs ∧
        |quantize (coeffs k).1 (maxValOf coeffs)| ≤ 127 ∧
        |quantize (coeffs k).2 (maxValOf coeffs)| ≤ 127 ∧
        |(quantize (coeffs k).1 (maxValOf coeffs) : ℚ) / 127 * maxValOf coeffs| ≤
          maxValOf coeffs ∧
        |(quantize (coeffs k).2 (maxValOf coeffs) : ℚ) / 127 * maxValOf coeffs| ≤
          maxValOf coeffs)) ∧
    (actualCount coeffs = 0 → maxValOf coeffs = 1) := by
  constructor
  · intro hK
    have hcount : actualCount coeffs =
        ((List.range 64).filter (fun k =>
          decide ((coeffs k).1 * (coeffs k).1 + (coeffs k).2 * (coeffs k).2 > 0))).length := by
      unfold actualCount
      rw [emitLoop_eq]
    rw [hcount] at hK
    have hex : ∃ k ∈ List.range 64,
        (coeffs k).1 * (coeffs k).1 + (coeffs k).2 * (coeffs k).2 > 0 := by
      rcases List.exists_mem_of_length_pos hK with ⟨k, hkmem⟩
      have := List.mem_filter.1 hkmem
      exact ⟨k, this.1, of_decide_eq_true this.2⟩
    rcases hex with ⟨k0, hk0mem, hk0⟩
    have hb := foldl_maxValStep_mem coeffs (List.range 64) 0 k0 hk0mem hk0
    have hraw : 0 < maxValRaw coeffs := by
      by_contra hle
      push_neg at hle
      have hge : (0 : ℚ) ≤ maxValRaw coeffs := foldl_maxValStep_ge coeffs _ 0
      have hzero : maxValRaw coeffs = 0 := le_antisymm hle hge
      have h1 : (coeffs k0).1 = 0 := by
        have := hb.1
        rw [show maxValRaw coeffs =
          (List.range 64).foldl (fun a j => maxValStep (coeffs j) a) 0 from rfl] at hzero
        rw [hzero] at this
        exact abs_eq_zero.1 (le_antisymm this (abs_nonneg _))
      have h2 : (coeffs k0).2 = 0 := by
        have := hb.2
        rw [show maxValRaw coeffs =
          (List.range 64).foldl (fun a j => maxValStep (coeffs j) a) 0 from rfl] at hzero
        rw [hzero] at this
        exact abs_eq_zero.1 (le_antisymm this (abs_nonneg _))
      rw [h1, h2] at hk0
      norm_num at hk0
    have hmv : maxValOf coeffs = maxValRaw coeffs := by
      unfold maxValOf
      rw [if_neg (ne_of_gt hraw)]
    refine ⟨by rw [hmv]; exact hraw, ?_⟩
    intro k hk64 hkpos
    have hbk := foldl_maxValStep_mem coeffs (List.range 64) 0 k
      (List.mem_range.2 hk64) hkpos
    have hre : |(coeffs k).1| ≤ maxValOf coeffs := by rw [hmv]; exact hbk.1
    have him : |(coeffs k).2| ≤ maxValOf coeffs := by rw [hmv]; exact hbk.2
    have hmvpos : 0 < maxValOf coeffs := by rw [hmv]; exact hraw
    have hq1 := quantize_bounds (coeffs k).1 (maxValOf coeffs) hmvpos hre
    have hq2 := quantize_bounds (coeffs k).2 (maxValOf coeffs) hmvpos him
    exact ⟨hre, him, hq1.1, hq2.1, hq1.2, hq2.2⟩
  · intro hK
    have hcount : ((List.range 64).filter (fun k =>
        decide ((coeffs k).1 * (coeffs k).1 + (coeffs k).2 * (coeffs k).2 > 0))).length = 0 := by
      have : actualCount coeffs =
          ((List.range 64).filter (fun k =>
            decide ((coeffs k).1 * (coeffs k).1 + (coeffs k).2 * (coeffs k).2 > 0))).length := by
        unfold actualCount
        rw [emitLoop_eq]
      omega
    have hnil := List.length_eq_zero.1 hcount
    have hall : ∀ k ∈ List.range 64,
        ¬ ((coeffs k).1 * (coeffs k).1 + (coeffs k).2 * (coeffs k).2 > 0) := by
      intro k hkmem hkpos
      have : k ∈ (List.range 64).filter (fun k =>
          decide ((coeffs k).1 * (coeffs k).1 + (coeffs k).2 * (coeffs k).2 > 0)) :=
        List.mem_filter.2 ⟨hkmem, decide_eq_true hkpos⟩
      rw [hnil] at this
      cases this
    have hraw : maxValRaw coeffs = 0 := foldl_maxValStep_zero coeffs _ hall
    unfold maxValOf
    rw [if_pos hraw]

/-- Concrete per-patch coefficients with a single non-zero (DC) bin,
used as the C6 witness input. -/
def dcCoeffs : ℕ → ℚ × ℚ :=
  fun k => if k = 0 then (1, 0) else (0, 0)

/-- Witness for C6: concrete coefficients with one non-zero bin. -/
theorem quantization_invariant_witness :
    0 < actualCount dcCoeffs ∧
    (0 < maxValOf dcCoeffs ∧
      (∀ k, k < 64 →
        (dcCoeffs k).1 * (dcCoeffs k).1 + (dcCoeffs k).2 * (dcCoeffs k).2 > 0 →
        |(dcCoeffs k).1| ≤ maxValOf dcCoeffs ∧
        |(dcCoeffs k).2| ≤ maxValOf dcCoeffs ∧
        |quantize (dcCoeffs k).1 (maxValOf dcCoeffs)| ≤ 127 ∧
        |quantize (dcCoeffs k).2 (maxValOf dcCoeffs)| ≤ 127 ∧
        |(quantize (dcCoeffs k).1 (maxValOf dcCoeffs) : ℚ) / 127 *
          maxValOf dcCoeffs| ≤ maxValOf dcCoeffs ∧
        |(quantize (dcCoeffs k).2 (maxValOf dcCoeffs) : ℚ) / 127 *
          maxValOf dcCoeffs| ≤ maxValOf dcCoeffs)) := by
  have h0 : actualCount dcCoeffs =
      ((List.range 64).filter (fun k =>
        decide ((dcCoeffs k).1 * (dcCoeffs k).1 + (dcCoeffs k).2 * (dcCoeffs k).2 > 0))).length := by
    unfold actualCount
    rw [emitLoop_eq]
  have hmem : (0 : ℕ) ∈ (List.range 64).filter (fun k =>
      decide ((dcCoeffs k).1 * (dcCoeffs k).1 + (dcCoeffs k).2 * (dcCoeffs k).2 > 0)) := by
    refine List.mem_filter.2 ⟨List.mem_range.2 (by norm_num), decide_eq_true ?_⟩
    norm_num [dcCoeffs]
  have hpos : 0 < actualCount dcCoeffs := by
    rw [h0]
    exact List.length_pos.2 (List.ne_nil_of_mem hmem)
  exact ⟨hpos, (quantization_invariant dcCoeffs).1 hpos⟩

/-! ## Adaptive frequency model (src/core/src/entropy.zig, FrequencyModel)

counts[0..255] with a length-257 Fenwick (binary indexed) tree over
them.  Arrays are modelled as functions ℕ → ℕ read at the indices the
source reads.  i & -%i on usize is i &&& (2⁶⁴ - i). -/

/-- i & -%i on a 64-bit usize: the lowest set bit of i. -/
def lowbit (i : ℕ) : ℕ :=
  Nat.land i ((18446744073709551616 - i) % 18446744073709551616)

/-- The index sequence of the Fenwick update loop
(i starts at symbol+1; while i < 257: touch bit[i]; i += i & -%i),
with enough fuel to cover the at most nine iterations. -/
def updPath : ℕ → ℕ → List ℕ
  | 0, _ => []
  | fuel + 1, i => if i < 257 then i :: updPath fuel (i + lowbit i) else []

/-- Finite check: for every start symbol s < 256 the update path from
s+1 is exactly the set of tree indices j < 257 whose covered interval
[j - lowbit j, j) contains s. -/
def updPathCheck : Bool :=
  (List.range 256).all (fun s =>
    updPath 257 (s + 1) ==
      (List.range 257).filter (fun j => Nat.ble (s + 1) j && Nat.ble (j - lowbit j) s))

set_option maxRecDepth 10000 in
set_option maxHeartbeats 4000000 in
theorem updPathCheck_true : updPathCheck = true := by rfl

/-- Finite check: at a probe point idx + 2^p with idx a multiple of
2^(p+1), the lowest set bit is exactly 2^p. -/
def lowbitProbeCheck : Bool :=
  (List.range 8).all (fun p =>
    (List.range 257).all (fun idx =>
      !(Nat.beq (idx % 2 ^ (p + 1)) 0) || Nat.beq (lowbit (idx + 2 ^ p)) (2 ^ p)))

set_option maxRecDepth 10000 in
theorem lowbitProbeCheck_true : lowbitProbeCheck = true := by rfl

theorem updPath_eq (s : ℕ) (hs : s < 256) :
    updPath 257 (s + 1) =
      (List.range 257).filter (fun j => Nat.ble (s + 1) j && Nat.ble (j - lowbit j) s) := by
  have h := updPathCheck_true
  unfold updPathCheck at h
  rw [List.all_eq_true] at h
  exact eq_of_beq (h s (List.mem_range.2 hs))

theorem updPath_count (s : ℕ) (hs : s < 256) (j : ℕ) (hj : j < 257) :
    (updPath 257 (s + 1)).count j =
      (if s + 1 ≤ j ∧ j - lowbit j ≤ s then 1 else 0) := by
  rw [updPath_eq s hs]
  by_cases hc : s + 1 ≤ j ∧ j - lowbit j ≤ s
  · rw [if_pos hc]
    refine List.count_eq_one_of_mem ((List.nodup_range 257).filter _) ?_
    refine List.mem_filter.2 ⟨List.mem_range.2 hj, ?_⟩
    have h1 : Nat.ble (s + 1) j = true := by simpa using hc.1
    have h2 : Nat.ble (j - lowbit j) s = true := by simpa using hc.2
    rw [h1, h2]
    rfl
  · rw [if_neg hc]
    refine List.count_eq_zero.2 ?_
    intro hmem
    have h2 := (List.mem_filter.1 hmem).2
    rw [Bool.and_eq_true] at h2
    exact hc ⟨by simpa using h2.1, by simpa using h2.2⟩

theorem lowbit_probe (p : ℕ) (hp : p < 8) (idx : ℕ) (hidx : idx < 257)
    (h : idx % 2 ^ (p + 1) = 0) : lowbit (idx + 2 ^ p) = 2 ^ p := by
  have hc := lowbitProbeCheck_true
  unfold lowbitProbeCheck at hc
  rw [List.all_eq_true] at hc
  have h1 := hc p (List.mem_range.2 hp)
  rw [List.all_eq_true] at h1
  have h2 := h1 idx (List.mem_range.2 hidx)
  rcases Bool.or_eq_true_iff.1 h2 with h3 | h3
  · exfalso
    rw [Bool.not_eq_eq_eq_not, Bool.not_true] at h3
    exact absurd (by simpa using congrArg (fun b => b = true) h3) (by simp [h])
  · exact Nat.eq_of_beq_eq_true h3

/-- Prefix sums of the count array: cum(s) = Σ_{t < s} counts[t]. -/
def cumCounts (counts : ℕ → ℕ) (s : ℕ) : ℕ :=
  ∑ t ∈ Finset.range s, counts t

/-- The contents a correct Fenwick tree holds at index j: the sum of
counts over the covered interval [j - lowbit j, j). -/
def fenwickOf (counts : ℕ → ℕ) (j : ℕ) : ℕ :=
  ∑ t ∈ Finset.Ico (j - lowbit j) j, counts t

/-- Add delta at every tree index on a path (the body of the Fenwick
update loop and of rebuild_bit's inner loop). -/
def bitAddPath (bit : ℕ → ℕ) (delta : ℕ) (path : List ℕ) : ℕ → ℕ :=
  path.foldl (fun b i => Function.update b i (b i + delta)) bit

theorem bitAddPath_apply (delta : ℕ) (path : List ℕ) (bit : ℕ → ℕ) (j : ℕ) :
    bitAddPath bit delta path j = bit j + delta * path.count j := by
  induction path generalizing bit with
  | nil => simp [bitAddPath]
  | cons hd tl ih =>
      unfold bitAddPath at ih ⊢
      rw [List.foldl_cons, ih]
      by_cases hj : hd = j
      · subst hj
        rw [Function.update_same, List.count_cons_self]
        ring
      · rw [Function.update_noteq (fun hh => hj hh.symm),
          List.count_cons_of_ne (fun hh => hj (by exact hh.symm))]

theorem list_sum_map_range (n : ℕ) (f : ℕ → ℕ) :
    ((List.range n).map f).sum = ∑ i ∈ Finset.range n, f i := by
  induction n with
  | zero => simp
  | succ m ih =>
      rw [List.range_succ, List.map_append, List.sum_append, Finset.sum_range_succ, ih]
      simp

/-- rebuild_bit from entropy.zig: zero the tree, then for every symbol
idx walk its update path adding counts[idx]. -/
def rebuildBit (counts : ℕ → ℕ) : ℕ → ℕ :=
  (List.range 256).foldl
    (fun b idx => bitAddPath b (counts idx) (updPath 257 (idx + 1)))
    (fun _ => 0)

theorem foldl_bitAddPath (counts : ℕ → ℕ) (L : List ℕ) (b : ℕ → ℕ) (j : ℕ) :
    (L.foldl (fun b idx => bitAddPath b (counts idx) (updPath 257 (idx + 1))) b) j =
      b j + (L.map (fun idx => counts idx * (updPath 257 (idx + 1)).count j)).sum := by
  induction L generalizing b with
  | nil => simp
  | cons hd tl ih =>
      rw [List.foldl_cons, ih, bitAddPath_apply]
      simp [Nat.add_assoc]

theorem rebuildBit_eq (counts : ℕ → ℕ) (j : ℕ) (hj : j < 257) :
    rebuildBit counts j = fenwickOf counts j := by
  unfold rebuildBit
  rw [foldl_bitAddPath, list_sum_map_range]
  have hsum : ∑ idx ∈ Finset.range 256,
      counts idx * (updPath 257 (idx + 1)).count j =
      ∑ idx ∈ Finset.range 256,
        (if idx + 1 ≤ j ∧ j - lowbit j ≤ idx then counts idx else 0) := by
    refine Finset.sum_congr rfl (fun idx hidx => ?_)
    rw [updPath_count idx (Finset.mem_range.1 hidx) j hj]
    by_cases hc : idx + 1 ≤ j ∧ j - lowbit j ≤ idx
    · rw [if_pos hc, if_pos hc, Nat.mul_one]
    · rw [if_neg hc, if_neg hc, Nat.mul_zero]
  rw [hsum, Finset.sum_ite, Finset.sum_const_zero, Nat.add_zero]
  unfold fenwickOf
  have hset : (Finset.range 256).filter (fun idx => idx + 1 ≤ j ∧ j - lowbit j ≤ idx) =
      Finset.Ico (j - lowbit j) j := by
    ext idx
    simp only [Finset.mem_filter, Finset.mem_range, Finset.mem_Ico]
    omega
  rw [hset]
  simp

/-- The adaptive order-0 frequency model: 256 symbol counts, the
length-257 Fenwick tree and the running total. -/
structure FrequencyModel where
  counts : ℕ → ℕ
  bit : ℕ → ℕ
  total : ℕ

/-- counts after init: 1 for each of the 256 symbols. -/
def initCounts : ℕ → ℕ :=
  fun i => if i < 256 then 1 else 0

/-- FrequencyModel.init: all counts 1, total 256, tree rebuilt. -/
def initModel : FrequencyModel :=
  { counts := initCounts, bit := rebuildBit initCounts, total := 256 }

/-- The halving rule applied to the 256 symbol counts:
counts[j] ← (counts[j] >> 1) + 1. -/
def halvedCounts (counts : ℕ → ℕ) : ℕ → ℕ :=
  fun j => if j < 256 then counts j / 2 + 1 else counts j

/-- FrequencyModel.update: walk the Fenwick path from symbol+1 adding 1,
bump counts[symbol] and total; when total reaches 2¹⁴ halve all counts
(keeping them ≥ 1), recompute total as their sum and rebuild the tree. -/
def updateModel (m : FrequencyModel) (symbol : ℕ) : FrequencyModel :=
  if 16384 ≤ m.total + 1 then
    { counts := halvedCounts (Function.update m.counts symbol (m.counts symbol + 1)),
      bit := rebuildBit (halvedCounts (Function.update m.counts symbol (m.counts symbol + 1))),
      total := ∑ j ∈ Finset.range 256,
        halvedCounts (Function.update m.counts symbol (m.counts symbol + 1)) j }
  else
    { counts := Function.update m.counts symbol (m.counts symbol + 1),
      bit := bitAddPath m.bit 1 (updPath 257 (symbol + 1)),
      total := m.total + 1 }

/-- The frequency-model states reachable by init followed by updates
with byte symbols. -/
inductive Reachable : FrequencyModel → Prop
  | init : Reachable initModel
  | update (m : FrequencyModel) (symbol : ℕ) (h : symbol < 256) :
      Reachable m → Reachable (updateModel m symbol)

/-- Coherence of a model state: the tree holds the Fenwick sums of the
counts and total is the sum of all 256 counts. -/
def ModelInv (m : FrequencyModel) : Prop :=
  (∀ j, j < 257 → m.bit j = fenwickOf m.counts j) ∧
  m.total = cumCounts m.counts 256

theorem update_counts_apply (counts : ℕ → ℕ) (s x : ℕ) :
    Function.update counts s (counts s + 1) x =
      counts x + (if x = s then 1 else 0) := by
  by_cases hx : x = s
  · subst hx
    rw [Function.update_same, if_pos rfl]
  · rw [Function.update_noteq hx, if_neg hx]
    omega

theorem fenwickOf_update (counts : ℕ → ℕ) (s j : ℕ) :
    fenwickOf (Function.update counts s (counts s + 1)) j =
      fenwickOf counts j + (if j - lowbit j ≤ s ∧ s < j then 1 else 0) := by
  unfold fenwickOf
  have h1 : ∀ x ∈ Finset.Ico (j - lowbit j) j,
      Function.update counts s (counts s + 1) x =
        counts x + (if x = s then 1 else 0) :=
    fun x _ => update_counts_apply counts s x
  rw [Finset.sum_congr rfl h1, Finset.sum_add_distrib, Finset.sum_ite_eq']
  congr 1
  simp [Finset.mem_Ico]

theorem cumCounts_update (counts : ℕ → ℕ) (s : ℕ) (hs : s < 256) :
    cumCounts (Function.update counts s (counts s + 1)) 256 =
      cumCounts counts 256 + 1 := by
  unfold cumCounts
  have h1 : ∀ x ∈ Finset.range 256,
      Function.update counts s (counts s + 1) x =
        counts x + (if x = s then 1 else 0) :=
    fun x _ => update_counts_apply counts s x
  rw [Finset.sum_congr rfl h1, Finset.sum_add_distrib, Finset.sum_ite_eq']
  simp [hs]

theorem reachable_inv (m : FrequencyModel) (hm : Reachable m) : ModelInv m := by
  induction hm with
  | init =>
      constructor
      · intro j hj
        exact rebuildBit_eq initCounts j hj
      · show (256 : ℕ) = cumCounts initCounts 256
        unfold cumCounts initCounts
        rw [Finset.sum_congr rfl
          (fun i hi => if_pos (Finset.mem_range.1 hi))]
        simp
  | update m symbol hsym hr ih =>
      obtain ⟨hbit, htot⟩ := ih
      unfold updateModel
      by_cases hh : 16384 ≤ m.total + 1
      · rw [if_pos hh]
        refine ⟨fun j hj => rebuildBit_eq _ j hj, rfl⟩
      · rw [if_neg hh]
        constructor
        · intro j hj
          show bitAddPath m.bit 1 (updPath 257 (symbol + 1)) j = _
          rw [bitAddPath_apply, updPath_count symbol hsym j hj,
            hbit j hj, fenwickOf_update]
          have hiff : (symbol + 1 ≤ j ∧ j - lowbit j ≤ symbol) ↔
              (j - lowbit j ≤ symbol ∧ symbol < j) := by omega
          rw [if_congr hiff rfl rfl]
          omega
        · show m.total + 1 = cumCounts (Function.update m.counts symbol (m.counts symbol + 1)) 256
          rw [cumCounts_update m.counts symbol hsym, htot]

/-- The binary descent of FrequencyModel.get_symbol: while probe > 0,
try to step to idx + probe when that keeps the accumulated sum ≤ value,
then halve the probe. -/
def probeLoop (bitf : ℕ → ℕ) (value idx sum probe : ℕ) : ℕ × ℕ :=
  if hp : probe = 0 then (idx, sum)
  else if idx + probe < 257 ∧ sum + bitf (idx + probe) ≤ value then
    probeLoop bitf value (idx + probe) (sum + bitf (idx + probe)) (probe / 2)
  else
    probeLoop bitf value idx sum (probe / 2)
  termination_by probe
  decreasing_by
    all_goals exact Nat.div_lt_self (Nat.pos_of_ne_zero hp) one_lt_two

/-- FrequencyModel.get_symbol: descend from probe 128, clamp the found
index to 255, and return (symbol, low, range). -/
def getSymbol (m : FrequencyModel) (value : ℕ) : ℕ × ℕ × ℕ :=
  (min (probeLoop m.bit value 0 0 128).1 255,
   (probeLoop m.bit value 0 0 128).2,
   m.counts (min (probeLoop m.bit value 0 0 128).1 255))

theorem cum_add_interval (counts : ℕ → ℕ) (a b : ℕ) (hab : a ≤ b) :
    cumCounts counts a + ∑ t ∈ Finset.Ico a b, counts t = cumCounts counts b := by
  unfold cumCounts
  rw [Finset.range_eq_Ico]
  exact Finset.sum_Ico_consecutive _ (Nat.zero_le a) hab

theorem cum_mono (counts : ℕ → ℕ) (a b : ℕ) (hab : a ≤ b) :
    cumCounts counts a ≤ cumCounts counts b := by
  unfold cumCounts
  exact Finset.sum_le_sum_of_subset (Finset.range_subset.2 hab)

theorem mod_eq_zero_of_dvd (a b : ℕ) (h : a ∣ b) : b % a = 0 := by
  rcases h with ⟨c, rfl⟩
  simp [Nat.mul_mod_right]

theorem probeLoop_correct (counts bitf : ℕ → ℕ)
    (hbit : ∀ j, j < 257 → bitf j = fenwickOf counts j) (v : ℕ) :
    ∀ p, p < 8 → ∀ idx sum,
      idx % 2 ^ (p + 1) = 0 → idx + 2 ^ (p + 1) ≤ 256 →
      sum = cumCounts counts idx → sum ≤ v →
      v < cumCounts counts (idx + 2 ^ (p + 1)) →
      cumCounts counts (probeLoop bitf v idx sum (2 ^ p)).1 ≤ v ∧
      v < cumCounts counts ((probeLoop bitf v idx sum (2 ^ p)).1 + 1) ∧
      (probeLoop bitf v idx sum (2 ^ p)).2 =
        cumCounts counts (probeLoop bitf v idx sum (2 ^ p)).1 := by
  intro p
  induction p with
  | zero =>
      intro hp idx sum hmod hle hsum hsv hv
      have hnext : idx + 1 < 257 := by omega
      have hlow : lowbit (idx + 1) = 1 := by
        have h := lowbit_probe 0 (by norm_num) idx (by omega) (by simpa using hmod)
        simpa using h
      have hbn : bitf (idx + 1) = ∑ t ∈ Finset.Ico idx (idx + 1), counts t := by
        rw [hbit (idx + 1) hnext]
        unfold fenwickOf
        rw [hlow, (by omega : idx + 1 - 1 = idx)]
      have hcn : sum + bitf (idx + 1) = cumCounts counts (idx + 1) := by
        rw [hbn, hsum]
        exact cum_add_interval counts idx (idx + 1) (by omega)
      rw [probeLoop]
      rw [dif_neg (by norm_num : ¬ (2 ^ 0 : ℕ) = 0)]
      norm_num only [pow_zero]
      by_cases hcond : idx + 1 < 257 ∧ sum + bitf (idx + 1) ≤ v
      · rw [if_pos hcond]
        rw [probeLoop]
        rw [dif_pos (by norm_num : (1 : ℕ) / 2 = 0)]
        refine ⟨by rw [← hcn]; exact hcond.2, ?_, by rw [hcn]⟩
        have : idx + 1 + 1 = idx + 2 ^ (0 + 1) := by norm_num
        rw [this]
        exact hv
      · rw [if_neg hcond]
        rw [probeLoop]
        rw [dif_pos (by norm_num : (1 : ℕ) / 2 = 0)]
        have hv1 : v < cumCounts counts (idx + 1) := by
          rcases not_and_or.1 hcond with hc | hc
          · omega
          · rw [← hcn]
            omega
        exact ⟨by rw [hsum] at hsv; exact hsv, hv1, hsum⟩
  | succ q ih =>
      intro hp idx sum hmod hle hsum hsv hv
      have hq8 : q < 8 := by omega
      have hpow : (2 : ℕ) ^ (q + 1) = 2 ^ q + 2 ^ q := by
        rw [pow_succ]
        ring
      have hpow2 : (2 : ℕ) ^ (q + 1 + 1) = 2 ^ (q + 1) + 2 ^ (q + 1) := by
        rw [pow_succ 2 (q + 1)]
        ring
      have hqpos : 0 < (2 : ℕ) ^ q := Nat.pos_pow_of_pos q (by norm_num)
      have hq1pos : 0 < (2 : ℕ) ^ (q + 1) := Nat.pos_pow_of_pos _ (by norm_num)
      have hdiv : (2 : ℕ) ^ (q + 1) / 2 = 2 ^ q := by
        rw [pow_succ]
        omega
      have hnext : idx + 2 ^ (q + 1) < 257 := by omega
      have hbn : bitf (idx + 2 ^ (q + 1)) =
          ∑ t ∈ Finset.Ico idx (idx + 2 ^ (q + 1)), counts t := by
        rw [hbit (idx + 2 ^ (q + 1)) hnext]
        unfold fenwickOf
        rw [lowbit_probe (q + 1) (by omega) idx (by omega) hmod,
          (by omega : idx + 2 ^ (q + 1) - 2 ^ (q + 1) = idx)]
      have hcn : sum + bitf (idx + 2 ^ (q + 1)) =
          cumCounts counts (idx + 2 ^ (q + 1)) := by
        rw [hbn, hsum]
        exact cum_add_interval counts idx (idx + 2 ^ (q + 1)) (by omega)
      rw [probeLoop]
      rw [dif_neg (Nat.pos_iff_ne_zero.1 hq1pos)]
      have hdvd2 : 2 ^ (q + 1 + 1) ∣ idx := Nat.dvd_of_mod_eq_zero hmod
      have hdvd1 : (2 : ℕ) ^ (q + 1) ∣ idx :=
        dvd_trans (pow_dvd_pow 2 (by omega)) hdvd2
      have hmodq : idx % 2 ^ (q + 1) = 0 := mod_eq_zero_of_dvd _ _ hdvd1
      by_cases hcond2 : sum + bitf (idx + 2 ^ (q + 1)) ≤ v
      · rw [if_pos ⟨hnext, hcond2⟩, hdiv]
        have hmod1 : (idx + 2 ^ (q + 1)) % 2 ^ (q + 1) = 0 :=
          mod_eq_zero_of_dvd _ _ (Nat.dvd_add hdvd1 dvd_rfl)
        have hb1 : idx + 2 ^ (q + 1) + 2 ^ (q + 1) ≤ 256 := by omega
        have hv1 : v < cumCounts counts (idx + 2 ^ (q + 1) + 2 ^ (q + 1)) := by
          have he : idx + 2 ^ (q + 1) + 2 ^ (q + 1) = idx + 2 ^ (q + 1 + 1) := by
            omega
          rw [he]
          exact hv
        exact ih hq8 (idx + 2 ^ (q + 1)) (sum + bitf (idx + 2 ^ (q + 1)))
          hmod1 hb1 hcn hcond2 hv1
      · rw [if_neg (fun hand => hcond2 hand.2), hdiv]
        have hv1 : v < cumCounts counts (idx + 2 ^ (q + 1)) := by
          rw [← hcn]
          omega
        exact ih hq8 idx sum hmodq (by omega) hsum hsv hv1

theorem cum_succ (counts : ℕ → ℕ) (n : ℕ) :
    cumCounts counts (n + 1) = cumCounts counts n + counts n := by
  unfold cumCounts
  exact Finset.sum_range_succ _ _

/-- C4: on every reachable frequency-model state and every value
v < total, get_symbol(v) returns a symbol s ≤ 255 with
cum(s) ≤ v < cum(s) + counts[s], where cum(s) is the cumulative count
of the symbols below s. -/
theorem fenwick_get_symbol_correct (m : FrequencyModel) (hm : Reachable m)
    (v : ℕ) (hv : v < m.total) :
    (getSymbol m v).1 ≤ 255 ∧
    cumCounts m.counts (getSymbol m v).1 ≤ v ∧
    v < cumCounts m.counts (getSymbol m v).1 + m.counts (getSymbol m v).1 := by
  obtain ⟨hbit, htot⟩ := reachable_inv m hm
  have hvb : v < cumCounts m.counts (0 + 2 ^ 8) := by
    have he : (0 + 2 ^ 8 : ℕ) = 256 := by norm_num
    rw [he, ← htot]
    exact hv
  have h := probeLoop_correct m.counts m.bit hbit v 7 (by norm_num) 0 0
    (by norm_num) (by norm_num) (by simp [cumCounts]) (Nat.zero_le v) hvb
  have h128 : (2 : ℕ) ^ 7 = 128 := by norm_num
  rw [h128] at h
  obtain ⟨h1, h2, h3⟩ := h
  have hile : (probeLoop m.bit v 0 0 128).1 ≤ 255 := by
    by_contra hgt
    push_neg at hgt
    have hmono := cum_mono m.counts 256 (probeLoop m.bit v 0 0 128).1 (by omega)
    omega
  have hmin : min (probeLoop m.bit v 0 0 128).1 255 = (probeLoop m.bit v 0 0 128).1 :=
    min_eq_left hile
  unfold getSymbol
  rw [hmin]
  refine ⟨hile, h1, ?_⟩
  rw [← cum_succ]
  exact h2

/-- Witness for C4 at the freshly initialized model and value 0. -/
theorem fenwick_get_symbol_correct_witness :
    0 < initModel.total ∧
    ((getSymbol initModel 0).1 ≤ 255 ∧
     cumCounts initModel.counts (getSymbol initModel 0).1 ≤ 0 ∧
     0 < cumCounts initModel.counts (getSymbol initModel 0).1 +
       initModel.counts (getSymbol initModel 0).1) := by
  have h0 : 0 < initModel.total := by
    show 0 < 256
    norm_num
  exact ⟨h0, fenwick_get_symbol_correct initModel Reachable.init 0 h0⟩

/-! ## Range coder (src/core/src/entropy.zig, RangeEncoder / RangeDecoder;
src/core/src/root.zig, gap_compress_data / gap_decompress_data)

u32/u64 arithmetic is modelled on ℕ with explicit mod 2³²/2⁶⁴ exactly
where the source wraps (low +%=, shifts); multiplications the source
performs without wrap (range = p.range * r_div, which stays below 2³²
on every reachable state, as proved below) are modelled exactly.  The
renormalization while-loops run at most twice per symbol (range never
drops below 2¹⁰); they are modelled with fuel 4, which is never
exhausted on reachable states. -/

/-- FrequencyModel.get_cum: descend the Fenwick tree from index
symbol, accumulating bit[i] while stepping i -= i & -%i.  Fuel 257
bounds the at most 257 strictly decreasing iterations. -/
def cumLoop : ℕ → (ℕ → ℕ) → ℕ → ℕ → ℕ
  | 0, _, _, sum => sum
  | fuel + 1, bitf, i, sum =>
      if 0 < i then cumLoop fuel bitf (i - lowbit i) (sum + bitf i) else sum

def getCum (m : FrequencyModel) (s : ℕ) : ℕ :=
  cumLoop 257 m.bit s 0

/-- FrequencyModel.get_range: (cumulative below symbol, counts[symbol]). -/
def getRange (m : FrequencyModel) (s : ℕ) : ℕ × ℕ :=
  (getCum m s, m.counts s)

/-- RangeEncoder state: 32-bit range, 64-bit low, carry-delayed output
(cache byte, pending 0xFF run, started flag, output buffer). -/
structure RangeEncoder where
  range : ℕ
  low : ℕ
  cache : ℕ
  ffCount : ℕ
  started : Bool
  buffer : List ℕ

def initEncoder : RangeEncoder :=
  { range := 4294967295, low := 0, cache := 0, ffCount := 0,
    started := false, buffer := [] }

/-- RangeEncoder.write_byte_carry: bytes below 0xFF flush the cache and
the 0xFF run; bytes above 0xFF flush cache+1 and a zero run (the
delayed carry); 0xFF extends the pending run.  The u8 increment
cache+1 is modelled with the release-mode wrap; the invariant below
shows the carry branch only ever sees cache ≤ 0xFE. -/
def writeByteCarry (e : RangeEncoder) (b : ℕ) : RangeEncoder :=
  if b < 255 then
    { e with
      buffer := if e.started then e.buffer ++ [e.cache] ++ List.replicate e.ffCount 255
                else e.buffer,
      started := true, cache := b, ffCount := 0 }
  else if 255 < b then
    { e with
      buffer := if e.started then e.buffer ++ [(e.cache + 1) % 256] ++ List.replicate e.ffCount 0
                else e.buffer,
      started := true, cache := b % 256, ffCount := 0 }
  else
    { e with ffCount := e.ffCount + 1 }

/-- The encoder renormalization loop: while range < 2²⁴, emit the top
byte of low with the carry discipline, then shift low (masked to 32
bits) and range left by 8. -/
def encRenorm : ℕ → RangeEncoder → RangeEncoder
  | 0, e => e
  | fuel + 1, e =>
      if e.range < 16777216 then
        encRenorm fuel
          { writeByteCarry e (e.low / 16777216) with
            low := e.low * 256 % 4294967296,
            range := e.range * 256 % 4294967296 }
      else e

/-- RangeEncoder.encode_safe followed by the model update. -/
def encodeStep (e : RangeEncoder) (m : FrequencyModel) (s : ℕ) :
    RangeEncoder × FrequencyModel :=
  (encRenorm 4
    { e with
      low := (e.low + (getRange m s).1 * (e.range / m.total)) % 18446744073709551616,
      range := (getRange m s).2 * (e.range / m.total) },
   updateModel m s)

/-- One iteration of RangeEncoder.finish: push the top byte of low
through the carry discipline and shift low. -/
def finishStep (e : RangeEncoder) : RangeEncoder :=
  { writeByteCarry e (e.low / 16777216) with low := e.low * 256 % 4294967296 }

/-- RangeEncoder.finish: five flush iterations. -/
def finishEncoder (e : RangeEncoder) : RangeEncoder :=
  finishStep (finishStep (finishStep (finishStep (finishStep e))))

/-- Encode a byte sequence against an encoder/model pair. -/
def encRun : List ℕ → RangeEncoder × FrequencyModel → RangeEncoder × FrequencyModel
  | [], p => p
  | s :: rest, p => encRun rest (encodeStep p.1 p.2 s)

/-- gap_compress_data: fresh model and encoder, encode every input
byte, finish, and return the output buffer (the output-capacity copy
of the C ABI is the caller's allocation and is not part of the claim's
composition). -/
def gapCompressData (input : List ℕ) : List ℕ :=
  (finishEncoder (encRun input (initEncoder, initModel)).1).buffer

/-- RangeDecoder state. -/
structure RangeDecoder where
  range : ℕ
  code : ℕ
  buffer : List ℕ
  cursor : ℕ

/-- Shift one input byte (0 when the input is exhausted) into code. -/
def decReadByte (d : RangeDecoder) : RangeDecoder :=
  { d with
    code := d.code * 256 % 4294967296 +
      (if d.cursor < d.buffer.length then d.buffer.getD d.cursor 0 else 0),
    cursor := if d.cursor < d.buffer.length then d.cursor + 1 else d.cursor }

/-- RangeDecoder.init: read the first four bytes into code. -/
def initDecoder (data : List ℕ) : RangeDecoder :=
  decReadByte (decReadByte (decReadByte (decReadByte
    { range := 4294967295, code := 0, buffer := data, cursor := 0 })))

/-- The decoder renormalization loop. -/
def decRenorm : ℕ → RangeDecoder → RangeDecoder
  | 0, d => d
  | fuel + 1, d =>
      if d.range < 16777216 then
        decRenorm fuel { decReadByte d with range := d.range * 256 % 4294967296 }
      else d

/-- RangeDecoder.decode followed by the model update: recover the
symbol from code/(range/total), subtract its low, scale by its range,
renormalize. -/
def decodeStep (d : RangeDecoder) (m : FrequencyModel) :
    ℕ × RangeDecoder × FrequencyModel :=
  ((getSymbol m (d.code / (d.range / m.total))).1,
   decRenorm 4
     { d with
       code := d.code - (getSymbol m (d.code / (d.range / m.total))).2.1 * (d.range / m.total),
       range := (getSymbol m (d.code / (d.range / m.total))).2.2 * (d.range / m.total) },
   updateModel m (getSymbol m (d.code / (d.range / m.total))).1)

/-- Decode n symbols. -/
def decRun : ℕ → RangeDecoder → FrequencyModel → List ℕ
  | 0, _, _ => []
  | n + 1, d, m =>
      (decodeStep d m).1 :: decRun n (decodeStep d m).2.1 (decodeStep d m).2.2

/-- gap_decompress_data: fresh model, decode exactly outputLen symbols. -/
def gapDecompressData (input : List ℕ) (outputLen : ℕ) : List ℕ :=
  decRun outputLen (initDecoder input) initModel

/-- Count bounds maintained by the model: every symbol count is ≥ 1 and
the total stays in [256, 2¹⁴]. -/
def ModelBounds (m : FrequencyModel) : Prop :=
  (∀ j, j < 256 → 1 ≤ m.counts j) ∧ 256 ≤ m.total ∧ m.total ≤ 16384

theorem sum_halves_le (n : ℕ) (f : ℕ → ℕ) :
    ∑ j ∈ Finset.range n, f j / 2 ≤ (∑ j ∈ Finset.range n, f j) / 2 := by
  induction n with
  | zero => simp
  | succ m ih =>
      rw [Finset.sum_range_succ, Finset.sum_range_succ]
      omega

theorem reachable_bounds (m : FrequencyModel) (hm : Reachable m) : ModelBounds m := by
  induction hm with
  | init =>
      refine ⟨fun j hj => ?_, by norm_num [initModel], by norm_num [initModel]⟩
      show 1 ≤ initCounts j
      unfold initCounts
      rw [if_pos hj]
  | update m symbol hsym hr ih =>
      obtain ⟨hc, htl, htu⟩ := ih
      have htot := (reachable_inv m hr).2
      have hsum1 : ∑ j ∈ Finset.range 256,
          Function.update m.counts symbol (m.counts symbol + 1) j = m.total + 1 := by
        have := cumCounts_update m.counts symbol hsym
        unfold cumCounts at this htot
        rw [this]
        omega
      unfold updateModel
      by_cases hh : 16384 ≤ m.total + 1
      · rw [if_pos hh]
        refine ⟨fun j hj => ?_, ?_, ?_⟩
        · show 1 ≤ halvedCounts _ j
          unfold halvedCounts
          rw [if_pos hj]
          omega
        · show 256 ≤ ∑ j ∈ Finset.range 256, halvedCounts _ j
          calc (256 : ℕ) = ∑ _j ∈ Finset.range 256, 1 := by simp
            _ ≤ _ := Finset.sum_le_sum (fun j hj => by
                unfold halvedCounts
                rw [if_pos (Finset.mem_range.1 hj)]
                omega)
        · show (∑ j ∈ Finset.range 256, halvedCounts _ j) ≤ 16384
          have he : ∀ j ∈ Finset.range 256,
              halvedCounts (Function.update m.counts symbol (m.counts symbol + 1)) j =
                Function.update m.counts symbol (m.counts symbol + 1) j / 2 + 1 := by
            intro j hj
            unfold halvedCounts
            rw [if_pos (Finset.mem_range.1 hj)]
          rw [Finset.sum_congr rfl he, Finset.sum_add_distrib]
          have h1 := sum_halves_le 256 (Function.update m.counts symbol (m.counts symbol + 1))
          rw [hsum1] at h1
          simp only [Finset.sum_const, Finset.card_range, smul_eq_mul, mul_one]
          omega
      · rw [if_neg hh]
        refine ⟨fun j hj => ?_,
          by show 256 ≤ m.total + 1; omega,
          by show m.total + 1 ≤ 16384; omega⟩
        show 1 ≤ Function.update m.counts symbol (m.counts symbol + 1) j
        by_cases hjs : j = symbol
        · subst hjs
          rw [Function.update_same]
          omega
        · rw [Function.update_noteq hjs]
          exact hc j hj

/-- Finite check: for 1 ≤ i < 257 the lowest set bit of i is between 1
and i. -/
def lowbitRangeCheck : Bool :=
  (List.range 257).all (fun i =>
    Nat.beq i 0 || (Nat.ble 1 (lowbit i) && Nat.ble (lowbit i) i))

set_option maxRecDepth 10000 in
theorem lowbitRangeCheck_true : lowbitRangeCheck = true := by rfl

theorem lowbit_range (i : ℕ) (h0 : 0 < i) (hi : i < 257) :
    1 ≤ lowbit i ∧ lowbit i ≤ i := by
  have hc := lowbitRangeCheck_true
  unfold lowbitRangeCheck at hc
  rw [List.all_eq_true] at hc
  have h1 := hc i (List.mem_range.2 hi)
  rcases Bool.or_eq_true_iff.1 h1 with h2 | h2
  · exact absurd (Nat.eq_of_beq_eq_true h2) (by omega)
  · rw [Bool.and_eq_true] at h2
    exact ⟨by simpa using h2.1, by simpa using h2.2⟩

theorem cumLoop_eq (counts bitf : ℕ → ℕ)
    (hbit : ∀ j, j < 257 → bitf j = fenwickOf counts j) :
    ∀ fuel i sum, i < 257 → i ≤ fuel →
      cumLoop fuel bitf i sum = sum + cumCounts counts i := by
  intro fuel
  induction fuel with
  | zero =>
      intro i sum _ hle
      have : i = 0 := by omega
      subst this
      simp [cumLoop, cumCounts]
  | succ f ih =>
      intro i sum hi hle
      unfold cumLoop
      by_cases h0 : 0 < i
      · rw [if_pos h0]
        obtain ⟨hl1, hl2⟩ := lowbit_range i h0 hi
        have hrec := ih (i - lowbit i) (sum + bitf i) (by omega) (by omega)
        rw [hrec, hbit i hi]
        unfold fenwickOf
        have := cum_add_interval counts (i - lowbit i) i (by omega)
        omega
      · rw [if_neg h0]
        have : i = 0 := by omega
        subst this
        simp [cumCounts]

theorem getCum_eq (m : FrequencyModel) (hinv : ModelInv m) (s : ℕ) (hs : s ≤ 256) :
    getCum m s = cumCounts m.counts s := by
  unfold getCum
  rw [cumLoop_eq m.counts m.bit hinv.1 257 s 0 (by omega) (by omega)]
  omega

/-- On a coherent model, get_symbol is exact: any value in symbol s's
cumulative slot decodes to s with its low and range. -/
theorem getSymbol_exact (m : FrequencyModel) (hinv : ModelInv m)
    (s : ℕ) (hs : s < 256) (v : ℕ)
    (h1 : cumCounts m.counts s ≤ v)
    (h2 : v < cumCounts m.counts s + m.counts s) :
    getSymbol m v = (s, cumCounts m.counts s, m.counts s) := by
  have hvb : v < cumCounts m.counts (0 + 2 ^ 8) := by
    have hsub : cumCounts m.counts (s + 1) ≤ cumCounts m.counts 256 :=
      cum_mono m.counts (s + 1) 256 (by omega)
    rw [cum_succ] at hsub
    have he : (0 + 2 ^ 8 : ℕ) = 256 := by norm_num
    rw [he]
    omega
  have h := probeLoop_correct m.counts m.bit hinv.1 v 7 (by norm_num) 0 0
    (by norm_num) (by norm_num) (by simp [cumCounts]) (Nat.zero_le v) hvb
  have h128 : (2 : ℕ) ^ 7 = 128 := by norm_num
  rw [h128] at h
  obtain ⟨ha, hb, hcs⟩ := h
  have heq : (probeLoop m.bit v 0 0 128).1 = s := by
    by_contra hne
    rcases Nat.lt_or_ge (probeLoop m.bit v 0 0 128).1 s with hlt | hge
    · have := cum_mono m.counts ((probeLoop m.bit v 0 0 128).1 + 1) s (by omega)
      omega
    · have hgt : s < (probeLoop m.bit v 0 0 128).1 := by omega
      have hmono := cum_mono m.counts (s + 1) (probeLoop m.bit v 0 0 128).1 (by omega)
      rw [cum_succ] at hmono
      omega
  unfold getSymbol
  rw [heq, hcs, heq]
  have hmin : min s 255 = s := min_eq_left (by omega)
  rw [hmin]

/-- The base-256 value of a digit list (most significant first). -/
def rawVal : List ℕ → ℕ
  | [] => 0
  | b :: rest => b * 256 ^ rest.length + rawVal rest

theorem rawVal_append (A B : List ℕ) :
    rawVal (A ++ B) = rawVal A * 256 ^ B.length + rawVal B := by
  induction A with
  | nil => simp [rawVal]
  | cons a tl ih =>
      show a * 256 ^ (tl ++ B).length + rawVal (tl ++ B) = _
      rw [ih, List.length_append]
      show _ = (a * 256 ^ tl.length + rawVal tl) * 256 ^ B.length + rawVal B
      ring

theorem rawVal_replicate_255 (n : ℕ) :
    rawVal (List.replicate n 255) + 1 = 256 ^ n := by
  induction n with
  | zero => simp [rawVal]
  | succ k ih =>
      rw [List.replicate_succ]
      show 255 * 256 ^ (List.replicate k 255).length + rawVal (List.replicate k 255) + 1 = _
      rw [List.length_replicate]
      have h2 : (256 : ℕ) ^ (k + 1) = 256 * 256 ^ k := by ring
      omega

theorem rawVal_replicate_0 (n : ℕ) : rawVal (List.replicate n 0) = 0 := by
  induction n with
  | zero => simp [rawVal]
  | succ k ih =>
      rw [List.replicate_succ]
      show 0 * 256 ^ (List.replicate k 0).length + rawVal (List.replicate k 0) = 0
      rw [ih]
      simp

theorem rawVal_lt (L : List ℕ) (h : ∀ x ∈ L, x < 256) :
    rawVal L < 256 ^ L.length := by
  induction L with
  | nil => simp [rawVal]
  | cons a tl ih =>
      show a * 256 ^ tl.length + rawVal tl < 256 ^ (a :: tl).length
      have ha : a < 256 := h a (List.mem_cons_self a tl)
      have htl : rawVal tl < 256 ^ tl.length := ih (fun x hx => h x (List.mem_cons_of_mem a hx))
      have he : (256 : ℕ) ^ (a :: tl).length = 256 * 256 ^ tl.length := by
        rw [List.length_cons]
        ring
      rw [he]
      calc a * 256 ^ tl.length + rawVal tl
          < a * 256 ^ tl.length + 256 ^ tl.length := by omega
        _ = (a + 1) * 256 ^ tl.length := by ring
        _ ≤ 256 * 256 ^ tl.length := by
            exact Nat.mul_le_mul_right _ (by omega)

/-- Digit extraction: the c-th byte of a digit list is the corresponding
base-256 digit of its value. -/
theorem rawVal_getD (L : List ℕ) (h : ∀ x ∈ L, x < 256) :
    ∀ c, c < L.length →
      L.getD c 0 = rawVal L / 256 ^ (L.length - 1 - c) % 256 := by
  induction L with
  | nil => intro c hc; simp at hc
  | cons a tl ih =>
      intro c hc
      cases c with
      | zero =>
          show a = rawVal (a :: tl) / 256 ^ ((a :: tl).length - 1 - 0) % 256
          have ha : a < 256 := h a (List.mem_cons_self a tl)
          have htl : rawVal tl < 256 ^ tl.length :=
            rawVal_lt tl (fun x hx => h x (List.mem_cons_of_mem a hx))
          have he : (a :: tl).length - 1 - 0 = tl.length := by simp
          rw [he]
          show a = (a * 256 ^ tl.length + rawVal tl) / 256 ^ tl.length % 256
          have hp : 0 < (256 : ℕ) ^ tl.length := Nat.pos_pow_of_pos _ (by norm_num)
          have hcomm : a * 256 ^ tl.length + rawVal tl =
              rawVal tl + a * 256 ^ tl.length := by ring
          rw [hcomm, Nat.add_mul_div_right _ _ hp, Nat.div_eq_of_lt htl,
            Nat.zero_add, Nat.mod_eq_of_lt ha]
      | succ c' =>
          have hc' : c' < tl.length := by
            rw [List.length_cons] at hc
            omega
          have h1 : (a :: tl).getD (c' + 1) 0 = tl.getD c' 0 := by
            simp [List.getD]
          rw [h1, ih (fun x hx => h x (List.mem_cons_of_mem a hx)) c' hc']
          have he : (a :: tl).length - 1 - (c' + 1) = tl.length - 1 - c' := by
            rw [List.length_cons]
            omega
          rw [he]
          show rawVal tl / 256 ^ (tl.length - 1 - c') % 256 =
            (a * 256 ^ tl.length + rawVal tl) / 256 ^ (tl.length - 1 - c') % 256
          have hp : 0 < (256 : ℕ) ^ (tl.length - 1 - c') := Nat.pos_pow_of_pos _ (by norm_num)
          have hpow : (256 : ℕ) ^ tl.length =
              256 ^ c' * 256 * 256 ^ (tl.length - 1 - c') := by
            have h1 : c' + 1 + (tl.length - 1 - c') = tl.length := by omega
            calc (256 : ℕ) ^ tl.length = 256 ^ (c' + 1 + (tl.length - 1 - c')) := by rw [h1]
              _ = 256 ^ c' * 256 * 256 ^ (tl.length - 1 - c') := by
                  rw [pow_add, pow_add, pow_one]
          rw [hpow]
          have hre : a * (256 ^ c' * 256 * 256 ^ (tl.length - 1 - c')) + rawVal tl =
              rawVal tl + a * 256 ^ c' * 256 * 256 ^ (tl.length - 1 - c') := by ring
          rw [hre, Nat.add_mul_div_right _ _ hp, Nat.add_mul_mod_self_right]

/-- The value of a prefix of a digit list. -/
theorem rawVal_take (L : List ℕ) (h : ∀ x ∈ L, x < 256) (k : ℕ) (hk : k ≤ L.length) :
    rawVal (L.take k) = rawVal L / 256 ^ (L.length - k) := by
  have hsplit : L = L.take k ++ L.drop k := (List.take_append_drop k L).symm
  have hlen : (L.drop k).length = L.length - k := List.length_drop k L
  have hdrop : rawVal (L.drop k) < 256 ^ (L.length - k) := by
    rw [← hlen]
    exact rawVal_lt _ (fun x hx => h x (by rw [hsplit]; exact List.mem_append_right _ hx))
  conv_rhs => rw [hsplit]
  rw [rawVal_append, hlen]
  have hp : 0 < (256 : ℕ) ^ (L.length - k) := Nat.pos_pow_of_pos _ (by norm_num)
  have hll : (L.take k ++ L.drop k).length = L.length := by rw [← hsplit]
  rw [hll]
  have hcm : rawVal (L.take k) * 256 ^ (L.length - k) + rawVal (L.drop k) =
      256 ^ (L.length - k) * rawVal (L.take k) + rawVal (L.drop k) := by ring
  rw [hcm, Nat.mul_add_div hp, Nat.div_eq_of_lt hdrop, Nat.add_zero]

/-- Number of left-shifts the renormalization loop performs for a given
entry range. -/
def shiftCount : ℕ → ℕ → ℕ
  | 0, _ => 0
  | fuel + 1, r => if r < 16777216 then shiftCount fuel (r * 256 % 4294967296) + 1 else 0

/-- The range after the renormalization loop. -/
def renormRangeF : ℕ → ℕ → ℕ
  | 0, r => r
  | fuel + 1, r => if r < 16777216 then renormRangeF fuel (r * 256 % 4294967296) else r

/-- The bytes the encoder renormalization loop passes to
write_byte_carry, as a function of low and range at entry. -/
def renormDigits : ℕ → ℕ → ℕ → List ℕ
  | 0, _, _ => []
  | fuel + 1, low, r =>
      if r < 16777216 then
        low / 16777216 ::
          renormDigits fuel (low * 256 % 4294967296) (r * 256 % 4294967296)
      else []

/-- With entry range in [2¹⁰, 2³²) the loop shifts at most twice, the
mask never destroys bits, and the exit range is back in [2²⁴, 2³²). -/
theorem renorm_range_facts (r : ℕ) (h1 : 1024 ≤ r) (h2 : r < 4294967296) :
    renormRangeF 4 r = r * 256 ^ shiftCount 4 r ∧
    16777216 ≤ renormRangeF 4 r ∧ renormRangeF 4 r < 4294967296 := by
  by_cases c0 : r < 16777216
  · have hm0 : r * 256 % 4294967296 = r * 256 := Nat.mod_eq_of_lt (by omega)
    by_cases c1 : r * 256 < 16777216
    · have hm1 : r * 256 * 256 % 4294967296 = r * 256 * 256 := Nat.mod_eq_of_lt (by omega)
      have hc2 : ¬ (r * 256 * 256 < 16777216) := by omega
      have hsc : shiftCount 4 r = 2 := by
        show (if r < 16777216 then shiftCount 3 (r * 256 % 4294967296) + 1 else 0) = 2
        rw [if_pos c0, hm0]
        show (if r * 256 < 16777216 then shiftCount 2 (r * 256 * 256 % 4294967296) + 1 else 0) + 1 = 2
        rw [if_pos c1, hm1]
        show (if r * 256 * 256 < 16777216 then shiftCount 1 _ + 1 else 0) + 1 + 1 = 2
        rw [if_neg hc2]
      have hrf : renormRangeF 4 r = r * 256 * 256 := by
        show (if r < 16777216 then renormRangeF 3 (r * 256 % 4294967296) else r) = _
        rw [if_pos c0, hm0]
        show (if r * 256 < 16777216 then renormRangeF 2 (r * 256 * 256 % 4294967296) else r * 256) = _
        rw [if_pos c1, hm1]
        show (if r * 256 * 256 < 16777216 then renormRangeF 1 _ else r * 256 * 256) = _
        rw [if_neg hc2]
      refine ⟨?_, ?_, ?_⟩
      · rw [hrf, hsc]
        ring
      · rw [hrf]
        omega
      · rw [hrf]
        omega
    · have hsc : shiftCount 4 r = 1 := by
        show (if r < 16777216 then shiftCount 3 (r * 256 % 4294967296) + 1 else 0) = 1
        rw [if_pos c0, hm0]
        show (if r * 256 < 16777216 then shiftCount 2 _ + 1 else 0) + 1 = 1
        rw [if_neg c1]
      have hrf : renormRangeF 4 r = r * 256 := by
        show (if r < 16777216 then renormRangeF 3 (r * 256 % 4294967296) else r) = _
        rw [if_pos c0, hm0]
        show (if r * 256 < 16777216 then renormRangeF 2 _ else r * 256) = _
        rw [if_neg c1]
      refine ⟨?_, ?_, ?_⟩
      · rw [hrf, hsc]
        ring
      · rw [hrf]
        omega
      · rw [hrf]
        omega
  · have hsc : shiftCount 4 r = 0 := by
      show (if r < 16777216 then shiftCount 3 (r * 256 % 4294967296) + 1 else 0) = 0
      rw [if_neg c0]
    have hrf : renormRangeF 4 r = r := by
      show (if r < 16777216 then renormRangeF 3 (r * 256 % 4294967296) else r) = r
      rw [if_neg c0]
    refine ⟨?_, ?_, ?_⟩
    · rw [hrf, hsc, pow_zero, mul_one]
    · rw [hrf]
      omega
    · rw [hrf]
      omega

/-- The carry machine represents a digit list D exactly: the flushed
buffer followed by the pending block (cache byte then the 0xFF run,
which stands for its face value minus 1, a carry still being able to
arrive) covers D's value, lengths match, and everything flushed is a
byte.  Stated additively to stay subtraction-free. -/
def CarryOk (D : List ℕ) (e : RangeEncoder) : Prop :=
  e.started = true ∧
  rawVal e.buffer * 256 ^ (e.ffCount + 1) + e.cache * 256 ^ e.ffCount + 256 ^ e.ffCount
    = rawVal D + 1 ∧
  e.buffer.length + 1 + e.ffCount = D.length ∧
  (∀ x ∈ e.buffer, x < 256) ∧ e.cache < 256

theorem rawVal_singleton (c : ℕ) : rawVal [c] = c := by simp [rawVal]

theorem rawVal_snoc (D : List ℕ) (b : ℕ) :
    rawVal (D ++ [b]) = rawVal D * 256 + b := by
  rw [rawVal_append, rawVal_singleton]
  simp

/-- Pushing one digit b ≤ 0x1FF through write_byte_carry extends the
represented digit list by b, provided a carrying push (b ≥ 0x100) never
meets a 0xFF cache. -/
theorem carry_push (D : List ℕ) (e : RangeEncoder) (b : ℕ)
    (hok : CarryOk D e) (hb : b ≤ 511) (hcarry : 256 ≤ b → e.cache ≤ 254) :
    CarryOk (D ++ [b]) (writeByteCarry e b) := by
  obtain ⟨hst, hval, hlen, hbuf, hcache⟩ := hok
  have hDb := rawVal_snoc D b
  have hrep255 := rawVal_replicate_255 e.ffCount
  have hrep0 := rawVal_replicate_0 e.ffCount
  unfold writeByteCarry
  by_cases hb1 : b < 255
  · rw [if_pos hb1]
    simp only [hst, if_true]
    refine ⟨rfl, ?_, ?_, ?_, by show b < 256; omega⟩
    · show rawVal ((e.buffer ++ [e.cache]) ++ List.replicate e.ffCount 255) * 256 ^ (0 + 1) +
        b * 256 ^ 0 + 256 ^ 0 = rawVal (D ++ [b]) + 1
      rw [rawVal_append, rawVal_append, rawVal_singleton, List.length_replicate,
        List.length_singleton, hDb]
      zify at hval hrep255 ⊢
      linear_combination (256 : ℤ) * hval + 256 * hrep255
    · show ((e.buffer ++ [e.cache]) ++ List.replicate e.ffCount 255).length + 1 + 0 =
        (D ++ [b]).length
      simp only [List.length_append, List.length_replicate, List.length_singleton]
      omega
    · show ∀ x ∈ (e.buffer ++ [e.cache]) ++ List.replicate e.ffCount 255, x < 256
      intro x hx
      rcases List.mem_append.1 hx with hx1 | hx2
      · rcases List.mem_append.1 hx1 with hx3 | hx4
        · exact hbuf x hx3
        · rw [List.mem_singleton] at hx4
          omega
      · have := List.eq_of_mem_replicate hx2
        omega
  · by_cases hb2 : 255 < b
    · rw [if_neg hb1, if_pos hb2]
      simp only [hst, if_true]
      have hc254 : e.cache ≤ 254 := hcarry (by omega)
      have hmod : (e.cache + 1) % 256 = e.cache + 1 := Nat.mod_eq_of_lt (by omega)
      have hbm : b % 256 + 256 = b := by omega
      refine ⟨rfl, ?_, ?_, ?_, by show b % 256 < 256; omega⟩
      · show rawVal ((e.buffer ++ [(e.cache + 1) % 256]) ++ List.replicate e.ffCount 0) *
          256 ^ (0 + 1) + b % 256 * 256 ^ 0 + 256 ^ 0 = rawVal (D ++ [b]) + 1
        rw [rawVal_append, rawVal_append, rawVal_singleton, List.length_replicate,
          List.length_singleton, hDb, hmod, hrep0]
        zify at hval hbm ⊢
        linear_combination (256 : ℤ) * hval + hbm
      · show ((e.buffer ++ [(e.cache + 1) % 256]) ++ List.replicate e.ffCount 0).length + 1 + 0 =
          (D ++ [b]).length
        simp only [List.length_append, List.length_replicate, List.length_singleton]
        omega
      · show ∀ x ∈ (e.buffer ++ [(e.cache + 1) % 256]) ++ List.replicate e.ffCount 0, x < 256
        intro x hx
        rcases List.mem_append.1 hx with hx1 | hx2
        · rcases List.mem_append.1 hx1 with hx3 | hx4
          · exact hbuf x hx3
          · rw [List.mem_singleton] at hx4
            omega
        · have := List.eq_of_mem_replicate hx2
          omega
    · have hb255 : b = 255 := by omega
      rw [if_neg hb1, if_neg hb2]
      refine ⟨hst, ?_, ?_, hbuf, hcache⟩
      · show rawVal e.buffer * 256 ^ (e.ffCount + 1 + 1) + e.cache * 256 ^ (e.ffCount + 1) +
          256 ^ (e.ffCount + 1) = rawVal (D ++ [b]) + 1
        rw [hDb, hb255]
        zify at hval ⊢
        linear_combination (256 : ℤ) * hval
      · show e.buffer.length + 1 + (e.ffCount + 1) = (D ++ [b]).length
        simp only [List.length_append, List.length_singleton]
        omega

/-- The encoder renormalization loop: it pushes exactly the renorm
digits through the carry machine, the exit low/range satisfy the shift
identities, and the boundary invariant low + range ≤ 2³³ with
(low + range ≤ 2³² or cache ≤ 0xFE) is reestablished. -/
theorem encRenorm_spec (fuel : ℕ) : ∀ (e : RangeEncoder) (D : List ℕ),
    CarryOk D e →
    e.low + e.range ≤ 8589934592 →
    (e.low + e.range ≤ 4294967296 ∨ e.cache ≤ 254) →
    1 ≤ e.range → e.range < 4294967296 →
    CarryOk (D ++ renormDigits fuel e.low e.range) (encRenorm fuel e) ∧
    (encRenorm fuel e).range = renormRangeF fuel e.range ∧
    (renormDigits fuel e.low e.range).length = shiftCount fuel e.range ∧
    rawVal (renormDigits fuel e.low e.range) * 4294967296 + (encRenorm fuel e).low
      = e.low * 256 ^ (shiftCount fuel e.range) ∧
    (encRenorm fuel e).low + (encRenorm fuel e).range ≤ 8589934592 ∧
    ((encRenorm fuel e).low + (encRenorm fuel e).range ≤ 4294967296 ∨
      (encRenorm fuel e).cache ≤ 254) := by
  induction fuel with
  | zero =>
      intro e D hok hlr hdisj hr1 hr2
      refine ⟨by simpa [renormDigits, encRenorm] using hok, rfl, rfl, ?_, hlr, hdisj⟩
      show rawVal [] * 4294967296 + e.low = e.low * 256 ^ 0
      simp [rawVal]
  | succ f ih =>
      intro e D hok hlr hdisj hr1 hr2
      by_cases hlt : e.range < 16777216
      · have hstep : encRenorm (f + 1) e =
            encRenorm f { writeByteCarry e (e.low / 16777216) with
              low := e.low * 256 % 4294967296, range := e.range * 256 % 4294967296 } := by
          show (if e.range < 16777216 then _ else e) = _
          rw [if_pos hlt]
        have hdig : renormDigits (f + 1) e.low e.range =
            e.low / 16777216 ::
              renormDigits f (e.low * 256 % 4294967296) (e.range * 256 % 4294967296) := by
          show (if e.range < 16777216 then _ :: _ else []) = _
          rw [if_pos hlt]
        have hsc : shiftCount (f + 1) e.range =
            shiftCount f (e.range * 256 % 4294967296) + 1 := by
          show (if e.range < 16777216 then _ + 1 else 0) = _
          rw [if_pos hlt]
        have hrf : renormRangeF (f + 1) e.range =
            renormRangeF f (e.range * 256 % 4294967296) := by
          show (if e.range < 16777216 then _ else e.range) = _
          rw [if_pos hlt]
        have hlow33 : e.low < 8589934592 := by omega
        have hb511 : e.low / 16777216 ≤ 511 := by omega
        have hcarrypre : 256 ≤ e.low / 16777216 → e.cache ≤ 254 := by
          intro h256
          rcases hdisj with h | h
          · omega
          · exact h
        have hpush := carry_push D e (e.low / 16777216) ⟨hok.1, hok.2.1, hok.2.2.1,
          hok.2.2.2.1, hok.2.2.2.2⟩ hb511 hcarrypre
        have hr256 : e.range * 256 % 4294967296 = e.range * 256 :=
          Nat.mod_eq_of_lt (by omega)
        have hlowid : e.low / 16777216 * 4294967296 + e.low * 256 % 4294967296 =
            e.low * 256 := by omega
        have hok1 : CarryOk (D ++ [e.low / 16777216])
            { writeByteCarry e (e.low / 16777216) with
              low := e.low * 256 % 4294967296, range := e.range * 256 % 4294967296 } :=
          hpush
        have hlr1 : e.low * 256 % 4294967296 + e.range * 256 % 4294967296 ≤ 8589934592 := by
          rw [hr256]
          omega
        have hdisj1 : e.low * 256 % 4294967296 + e.range * 256 % 4294967296 ≤ 4294967296 ∨
            (writeByteCarry e (e.low / 16777216)).cache ≤ 254 := by
          rw [hr256]
          unfold writeByteCarry
          by_cases hc1 : e.low / 16777216 < 255
          · rw [if_pos hc1]
            right
            show e.low / 16777216 ≤ 254
            omega
          · by_cases hc2 : 255 < e.low / 16777216
            · rw [if_neg hc1, if_pos hc2]
              by_cases hc3 : e.low / 16777216 ≤ 510
              · right
                show e.low / 16777216 % 256 ≤ 254
                omega
              · left
                omega
            · rw [if_neg hc1, if_neg hc2]
              rcases hdisj with h | h
              · left
                omega
              · right
                exact h
        have hrec := ih { writeByteCarry e (e.low / 16777216) with
            low := e.low * 256 % 4294967296, range := e.range * 256 % 4294967296 }
          (D ++ [e.low / 16777216]) hok1 hlr1 hdisj1
          (by show 1 ≤ e.range * 256 % 4294967296; omega)
          (by show e.range * 256 % 4294967296 < 4294967296; omega)
        obtain ⟨hC1, hC2, hC3, hC4, hC5, hC6⟩ := hrec
        dsimp only at hC2 hC3 hC4
        rw [hstep, hdig, hsc, hrf]
        refine ⟨?_, hC2, ?_, ?_, hC5, hC6⟩
        · have hassoc : D ++ e.low / 16777216 ::
              renormDigits f (e.low * 256 % 4294967296) (e.range * 256 % 4294967296) =
              (D ++ [e.low / 16777216]) ++
                renormDigits f (e.low * 256 % 4294967296) (e.range * 256 % 4294967296) := by
            simp
          rw [hassoc]
          exact hC1
        · show (renormDigits f (e.low * 256 % 4294967296) (e.range * 256 % 4294967296)).length + 1 = _
          omega
        · have hcons : rawVal (e.low / 16777216 ::
              renormDigits f (e.low * 256 % 4294967296) (e.range * 256 % 4294967296)) =
              e.low / 16777216 *
                256 ^ (renormDigits f (e.low * 256 % 4294967296)
                  (e.range * 256 % 4294967296)).length +
              rawVal (renormDigits f (e.low * 256 % 4294967296)
                (e.range * 256 % 4294967296)) := rfl
          rw [hcons, hC3]
          zify at hC4 hlowid ⊢
          linear_combination hC4 +
            (256 : ℤ) ^ shiftCount f (e.range * 256 % 4294967296) * hlowid
      · have hstep : encRenorm (f + 1) e = e := by
          show (if e.range < 16777216 then _ else e) = e
          rw [if_neg hlt]
        have hdig : renormDigits (f + 1) e.low e.range = [] := by
          show (if e.range < 16777216 then _ :: _ else []) = []
          rw [if_neg hlt]
        have hsc : shiftCount (f + 1) e.range = 0 := by
          show (if e.range < 16777216 then _ + 1 else 0) = 0
          rw [if_neg hlt]
        have hrf : renormRangeF (f + 1) e.range = e.range := by
          show (if e.range < 16777216 then _ else e.range) = e.range
          rw [if_neg hlt]
        rw [hstep, hdig, hsc, hrf]
        refine ⟨by simpa using hok, rfl, rfl, ?_, hlr, hdisj⟩
        show rawVal [] * 4294967296 + e.low = e.low * 256 ^ 0
        simp [rawVal]

/-- The encoder boundary invariant between symbols: low + range ≤ 2³³,
a pending carry can still be absorbed (low + range ≤ 2³² or
cache ≤ 0xFE), and range is renormalized into [2²⁴, 2³²). -/
def EncInv (e : RangeEncoder) : Prop :=
  e.low + e.range ≤ 8589934592 ∧
  (e.low + e.range ≤ 4294967296 ∨ e.cache ≤ 254) ∧
  16777216 ≤ e.range ∧ e.range < 4294967296

/-- Arithmetic shadow of the encoder run: for a symbol list, entry range
and model, returns (total digit pushes Q, future-additions value F,
exit range), where F sums each symbol's low·r_div scaled by 256^(pushes
made after that addition). -/
def encSpec : List ℕ → ℕ → FrequencyModel → ℕ × ℕ × ℕ
  | [], r, _ => (0, 0, r)
  | s :: rest, r, m =>
      (shiftCount 4 (m.counts s * (r / m.total)) +
         (encSpec rest (renormRangeF 4 (m.counts s * (r / m.total))) (updateModel m s)).1,
       cumCounts m.counts s * (r / m.total) *
           256 ^ (shiftCount 4 (m.counts s * (r / m.total)) +
             (encSpec rest (renormRangeF 4 (m.counts s * (r / m.total))) (updateModel m s)).1) +
         (encSpec rest (renormRangeF 4 (m.counts s * (r / m.total))) (updateModel m s)).2.1,
       (encSpec rest (renormRangeF 4 (m.counts s * (r / m.total))) (updateModel m s)).2.2)

/-- Encoding a byte list from any boundary state pushes exactly the
digits accounted by encSpec through the carry machine and satisfies the
value identity rawVal(E)·2³² + low' = low·256^Q + F. -/
theorem encRun_spec : ∀ (B : List ℕ) (e : RangeEncoder) (m : FrequencyModel) (D : List ℕ),
    (∀ s ∈ B, s < 256) → Reachable m → EncInv e → CarryOk D e →
    Reachable (encRun B (e, m)).2 ∧
    EncInv (encRun B (e, m)).1 ∧
    ∃ E : List ℕ,
      CarryOk (D ++ E) (encRun B (e, m)).1 ∧
      E.length = (encSpec B e.range m).1 ∧
      (encRun B (e, m)).1.range = (encSpec B e.range m).2.2 ∧
      rawVal E * 4294967296 + (encRun B (e, m)).1.low
        = e.low * 256 ^ (encSpec B e.range m).1 + (encSpec B e.range m).2.1 := by
  intro B
  induction B with
  | nil =>
      intro e m D hB hm hinv hok
      refine ⟨hm, hinv, [], by simpa [encRun] using hok, rfl, rfl, ?_⟩
      show rawVal [] * 4294967296 + e.low = e.low * 256 ^ 0 + 0
      simp [rawVal]
  | cons s rest ih =>
      intro e m D hB hm hinv hok
      have hs : s < 256 := hB s (List.mem_cons_self s rest)
      have hBr : ∀ x ∈ rest, x < 256 := fun x hx => hB x (List.mem_cons_of_mem s hx)
      obtain ⟨hlr, hdisj, hrlo, hrhi⟩ := hinv
      have hMI := reachable_inv m hm
      have hMB := reachable_bounds m hm
      obtain ⟨hcnts, htl, htu⟩ := hMB
      have hMB : ModelBounds m := ⟨hcnts, htl, htu⟩
      have htot := hMI.2
      have htpos : 0 < m.total := by omega
      have hcum : getCum m s = cumCounts m.counts s := getCum_eq m hMI s (by omega)
      have hrd1 : 1024 ≤ e.range / m.total := by
        have ha : e.range / 16384 ≤ e.range / m.total :=
          Nat.div_le_div_left hMB.2.2 htpos
        omega
      have hcts : cumCounts m.counts s + m.counts s ≤ m.total := by
        have h1 := cum_mono m.counts (s + 1) 256 (by omega)
        rw [cum_succ] at h1
        omega
      have h2 : (cumCounts m.counts s + m.counts s) * (e.range / m.total) ≤
          m.total * (e.range / m.total) := Nat.mul_le_mul_right _ hcts
      have h3 : m.total * (e.range / m.total) ≤ e.range := by
        rw [Nat.mul_comm]
        exact Nat.div_mul_le_self _ _
      have hprod : cumCounts m.counts s * (e.range / m.total) +
          m.counts s * (e.range / m.total) ≤ e.range := by
        calc cumCounts m.counts s * (e.range / m.total) +
            m.counts s * (e.range / m.total)
            = (cumCounts m.counts s + m.counts s) * (e.range / m.total) := by ring
          _ ≤ m.total * (e.range / m.total) := h2
          _ ≤ e.range := h3
      have hr11 : 1024 ≤ m.counts s * (e.range / m.total) := by
        calc (1024 : ℕ) ≤ e.range / m.total := hrd1
          _ = 1 * (e.range / m.total) := by ring
          _ ≤ m.counts s * (e.range / m.total) :=
              Nat.mul_le_mul_right _ (hMB.1 s hs)
      have hr12 : m.counts s * (e.range / m.total) < 4294967296 := by
        have hc1 : m.counts s ≤ m.total := by omega
        have h4 := Nat.mul_le_mul_right (e.range / m.total) hc1
        exact lt_of_le_of_lt (le_trans h4 h3) hrhi
      have hA1 : cumCounts m.counts s * (e.range / m.total) ≤ e.range :=
        le_trans (Nat.le_add_right _ _) hprod
      have hC1le : m.counts s * (e.range / m.total) ≤ e.range :=
        le_trans (Nat.le_add_left _ _) hprod
      have hmod64 : (e.low + getCum m s * (e.range / m.total)) % 18446744073709551616 =
          e.low + cumCounts m.counts s * (e.range / m.total) := by
        rw [hcum]
        exact Nat.mod_eq_of_lt (lt_of_le_of_lt
          (le_trans (Nat.add_le_add_left hA1 e.low) hlr) (by norm_num))
      have hunf : encodeStep e m s =
          (encRenorm 4 { e with
              low := e.low + cumCounts m.counts s * (e.range / m.total),
              range := m.counts s * (e.range / m.total) },
           updateModel m s) := by
        unfold encodeStep getRange
        rw [hmod64]
      have hsum13 : e.low + cumCounts m.counts s * (e.range / m.total) +
          m.counts s * (e.range / m.total) ≤ e.low + e.range := by
        have he : e.low + cumCounts m.counts s * (e.range / m.total) +
            m.counts s * (e.range / m.total)
            = e.low + (cumCounts m.counts s * (e.range / m.total) +
                m.counts s * (e.range / m.total)) := by ring
        rw [he]
        exact Nat.add_le_add_left hprod e.low
      have hh1 : e.low + cumCounts m.counts s * (e.range / m.total) +
          m.counts s * (e.range / m.total) ≤ 8589934592 := le_trans hsum13 hlr
      have hh2 : e.low + cumCounts m.counts s * (e.range / m.total) +
          m.counts s * (e.range / m.total) ≤ 4294967296 ∨ e.cache ≤ 254 := by
        rcases hdisj with h | h
        · exact Or.inl (le_trans hsum13 h)
        · exact Or.inr h
      have hh3 : 1 ≤ m.counts s * (e.range / m.total) := le_trans (by norm_num) hr11
      have hren := encRenorm_spec 4
        { e with low := e.low + cumCounts m.counts s * (e.range / m.total),
                 range := m.counts s * (e.range / m.total) } D
        hok hh1 hh2 hh3 hr12
      obtain ⟨hok1, hrange1, hlen1, hval1, hC5, hC6⟩ := hren
      dsimp only at hok1 hrange1 hlen1 hval1
      have hrff := renorm_range_facts (m.counts s * (e.range / m.total)) hr11 hr12
      have hm1 : Reachable (updateModel m s) := Reachable.update m s hs hm
      have hinv1 : EncInv (encRenorm 4 { e with
          low := e.low + cumCounts m.counts s * (e.range / m.total),
          range := m.counts s * (e.range / m.total) }) := by
        refine ⟨hC5, hC6, ?_, ?_⟩
        · rw [hrange1]
          exact hrff.2.1
        · rw [hrange1]
          exact hrff.2.2
      have hrun : encRun (s :: rest) (e, m) =
          encRun rest (encodeStep e m s) := rfl
      rw [hrun, hunf]
      have hihres := ih (encRenorm 4 { e with
          low := e.low + cumCounts m.counts s * (e.range / m.total),
          range := m.counts s * (e.range / m.total) })
        (updateModel m s)
        (D ++ renormDigits 4 (e.low + cumCounts m.counts s * (e.range / m.total))
          (m.counts s * (e.range / m.total)))
        hBr hm1 hinv1 hok1
      obtain ⟨hR1, hR2, E', hE1, hE2, hE3, hE4⟩ := hihres
      rw [hrange1] at hE2 hE3 hE4
      refine ⟨hR1, hR2,
        renormDigits 4 (e.low + cumCounts m.counts s * (e.range / m.total))
          (m.counts s * (e.range / m.total)) ++ E', ?_, ?_, ?_, ?_⟩
      · rw [← List.append_assoc]
        exact hE1
      · rw [List.length_append, hlen1, hE2]
        rfl
      · exact hE3
      · have hS1 : (encSpec (s :: rest) e.range m).1 =
            shiftCount 4 (m.counts s * (e.range / m.total)) +
              (encSpec rest (renormRangeF 4 (m.counts s * (e.range / m.total)))
                (updateModel m s)).1 := rfl
        have hS2 : (encSpec (s :: rest) e.range m).2.1 =
            cumCounts m.counts s * (e.range / m.total) *
                256 ^ (shiftCount 4 (m.counts s * (e.range / m.total)) +
                  (encSpec rest (renormRangeF 4 (m.counts s * (e.range / m.total)))
                    (updateModel m s)).1) +
              (encSpec rest (renormRangeF 4 (m.counts s * (e.range / m.total)))
                (updateModel m s)).2.1 := rfl
        rw [hS1, hS2, rawVal_append, hE2]
        zify at hval1 hE4 ⊢
        linear_combination hE4 +
          (256 : ℤ) ^ (encSpec rest (renormRangeF 4 (m.counts s * (e.range / m.total)))
            (updateModel m s)).1 * hval1

/-- Per-symbol arithmetic bounds used on both coder sides. -/
theorem step_arith (r : ℕ) (m : FrequencyModel) (s : ℕ) (hm : Reachable m) (hs : s < 256)
    (hrlo : 16777216 ≤ r) (hrhi : r < 4294967296) :
    cumCounts m.counts s * (r / m.total) + m.counts s * (r / m.total) ≤ r ∧
    1024 ≤ m.counts s * (r / m.total) ∧
    m.counts s * (r / m.total) < 4294967296 ∧
    1024 ≤ r / m.total := by
  have hMI := reachable_inv m hm
  have hMB := reachable_bounds m hm
  obtain ⟨hcnts, htl, htu⟩ := hMB
  have htot := hMI.2
  have htpos : 0 < m.total := by omega
  have hrd1 : 1024 ≤ r / m.total := by
    have ha : r / 16384 ≤ r / m.total := Nat.div_le_div_left htu htpos
    omega
  have hcts : cumCounts m.counts s + m.counts s ≤ m.total := by
    have h1 := cum_mono m.counts (s + 1) 256 (by omega)
    rw [cum_succ] at h1
    omega
  have h2 : (cumCounts m.counts s + m.counts s) * (r / m.total) ≤
      m.total * (r / m.total) := Nat.mul_le_mul_right _ hcts
  have h3 : m.total * (r / m.total) ≤ r := by
    rw [Nat.mul_comm]
    exact Nat.div_mul_le_self _ _
  have hprod : cumCounts m.counts s * (r / m.total) + m.counts s * (r / m.total) ≤ r := by
    calc cumCounts m.counts s * (r / m.total) + m.counts s * (r / m.total)
        = (cumCounts m.counts s + m.counts s) * (r / m.total) := by ring
      _ ≤ m.total * (r / m.total) := h2
      _ ≤ r := h3
  refine ⟨hprod, ?_, ?_, hrd1⟩
  · calc (1024 : ℕ) ≤ r / m.total := hrd1
      _ = 1 * (r / m.total) := by ring
      _ ≤ m.counts s * (r / m.total) := Nat.mul_le_mul_right _ (hcnts s hs)
  · have hc1 : m.counts s ≤ m.total := by omega
    have h4 := Nat.mul_le_mul_right (r / m.total) hc1
    exact lt_of_le_of_lt (le_trans h4 h3) hrhi

/-- The future-additions value stays below the available width:
F + exit range ≤ r·256^Q, and the exit range is renormalized. -/
theorem encSpec_bound : ∀ (B : List ℕ) (r : ℕ) (m : FrequencyModel),
    (∀ s ∈ B, s < 256) → Reachable m → 16777216 ≤ r → r < 4294967296 →
    (encSpec B r m).2.1 + (encSpec B r m).2.2 ≤ r * 256 ^ (encSpec B r m).1 ∧
    16777216 ≤ (encSpec B r m).2.2 ∧ (encSpec B r m).2.2 < 4294967296 := by
  intro B
  induction B with
  | nil =>
      intro r m hB hm hrlo hrhi
      refine ⟨?_, hrlo, hrhi⟩
      show 0 + r ≤ r * 256 ^ 0
      simp
  | cons s rest ih =>
      intro r m hB hm hrlo hrhi
      have hs : s < 256 := hB s (List.mem_cons_self s rest)
      have hBr : ∀ x ∈ rest, x < 256 := fun x hx => hB x (List.mem_cons_of_mem s hx)
      obtain ⟨hprod, hr11, hr12, hrd1⟩ := step_arith r m s hm hs hrlo hrhi
      have hrff := renorm_range_facts (m.counts s * (r / m.total)) hr11 hr12
      have hm1 := Reachable.update m s hs hm
      obtain ⟨hb, hlo', hhi'⟩ := ih (renormRangeF 4 (m.counts s * (r / m.total)))
        (updateModel m s) hBr hm1 hrff.2.1 hrff.2.2
      have hS1 : (encSpec (s :: rest) r m).1 =
          shiftCount 4 (m.counts s * (r / m.total)) +
            (encSpec rest (renormRangeF 4 (m.counts s * (r / m.total)))
              (updateModel m s)).1 := rfl
      have hS2 : (encSpec (s :: rest) r m).2.1 =
          cumCounts m.counts s * (r / m.total) *
              256 ^ (shiftCount 4 (m.counts s * (r / m.total)) +
                (encSpec rest (renormRangeF 4 (m.counts s * (r / m.total)))
                  (updateModel m s)).1) +
            (encSpec rest (renormRangeF 4 (m.counts s * (r / m.total)))
              (updateModel m s)).2.1 := rfl
      have hS3 : (encSpec (s :: rest) r m).2.2 =
          (encSpec rest (renormRangeF 4 (m.counts s * (r / m.total)))
            (updateModel m s)).2.2 := rfl
      rw [hS1, hS2, hS3]
      refine ⟨?_, hlo', hhi'⟩
      calc cumCounts m.counts s * (r / m.total) *
            256 ^ (shiftCount 4 (m.counts s * (r / m.total)) +
              (encSpec rest (renormRangeF 4 (m.counts s * (r / m.total)))
                (updateModel m s)).1) +
            (encSpec rest (renormRangeF 4 (m.counts s * (r / m.total)))
              (updateModel m s)).2.1 +
            (encSpec rest (renormRangeF 4 (m.counts s * (r / m.total)))
              (updateModel m s)).2.2
          = cumCounts m.counts s * (r / m.total) *
              256 ^ (shiftCount 4 (m.counts s * (r / m.total)) +
                (encSpec rest (renormRangeF 4 (m.counts s * (r / m.total)))
                  (updateModel m s)).1) +
              ((encSpec rest (renormRangeF 4 (m.counts s * (r / m.total)))
                (updateModel m s)).2.1 +
               (encSpec rest (renormRangeF 4 (m.counts s * (r / m.total)))
                (updateModel m s)).2.2) := by ring
        _ ≤ cumCounts m.counts s * (r / m.total) *
              256 ^ (shiftCount 4 (m.counts s * (r / m.total)) +
                (encSpec rest (renormRangeF 4 (m.counts s * (r / m.total)))
                  (updateModel m s)).1) +
              renormRangeF 4 (m.counts s * (r / m.total)) *
                256 ^ (encSpec rest (renormRangeF 4 (m.counts s * (r / m.total)))
                  (updateModel m s)).1 := Nat.add_le_add_left hb _
        _ = (cumCounts m.counts s * (r / m.total) + m.counts s * (r / m.total)) *
              256 ^ (shiftCount 4 (m.counts s * (r / m.total)) +
                (encSpec rest (renormRangeF 4 (m.counts s * (r / m.total)))
                  (updateModel m s)).1) := by
            rw [hrff.1]
            ring
        _ ≤ r * 256 ^ (shiftCount 4 (m.counts s * (r / m.total)) +
              (encSpec rest (renormRangeF 4 (m.counts s * (r / m.total)))
                (updateModel m s)).1) := Nat.mul_le_mul_right _ hprod

/-- One finish flush: push the top byte of low, shift low. -/
theorem finishStep_spec (e : RangeEncoder) (D : List ℕ) (hok : CarryOk D e)
    (hlow : e.low < 8589934592) (hcarry : 256 ≤ e.low / 16777216 → e.cache ≤ 254) :
    CarryOk (D ++ [e.low / 16777216]) (finishStep e) ∧
    (finishStep e).low = e.low * 256 % 4294967296 ∧
    (finishStep e).low < 4294967296 ∧
    e.low / 16777216 * 4294967296 + (finishStep e).low = e.low * 256 := by
  have hpush := carry_push D e (e.low / 16777216) hok (by omega) hcarry
  refine ⟨hpush, rfl, by show e.low * 256 % 4294967296 < 4294967296; omega, ?_⟩
  show e.low / 16777216 * 4294967296 + e.low * 256 % 4294967296 = e.low * 256
  omega

/-- RangeEncoder.finish: the five flushes emit exactly the five bytes
of low·256 (the last one 0), leave an empty pending block, and the
carry machine ends representing all digits. -/
theorem finishEncoder_spec (e : RangeEncoder) (D : List ℕ) (hok : CarryOk D e)
    (hinv : EncInv e) :
    ∃ D5 : List ℕ, D5.length = 5 ∧
      CarryOk (D ++ D5) (finishEncoder e) ∧
      rawVal D5 * 4294967296 = e.low * 256 ^ 5 ∧
      (finishEncoder e).cache = 0 ∧ (finishEncoder e).ffCount = 0 := by
  obtain ⟨hlr, hdisj, hrlo, hrhi⟩ := hinv
  have hlow0 : e.low < 8589934592 := by omega
  have hc1 : 256 ≤ e.low / 16777216 → e.cache ≤ 254 := by
    intro h
    rcases hdisj with hd | hd
    · omega
    · exact hd
  obtain ⟨hokA, hlowAeq, hlowAlt, hvalA⟩ := finishStep_spec e D hok hlow0 hc1
  obtain ⟨hokB, hlowBeq, hlowBlt, hvalB⟩ := finishStep_spec (finishStep e)
    (D ++ [e.low / 16777216]) hokA (by omega) (by intro h; omega)
  obtain ⟨hokC, hlowCeq, hlowClt, hvalC⟩ := finishStep_spec (finishStep (finishStep e))
    ((D ++ [e.low / 16777216]) ++ [(finishStep e).low / 16777216]) hokB
    (by omega) (by intro h; omega)
  obtain ⟨hokD, hlowDeq, hlowDlt, hvalD⟩ :=
    finishStep_spec (finishStep (finishStep (finishStep e)))
    (((D ++ [e.low / 16777216]) ++ [(finishStep e).low / 16777216]) ++
      [(finishStep (finishStep e)).low / 16777216]) hokC
    (by omega) (by intro h; omega)
  have hL4 : (finishStep (finishStep (finishStep (finishStep e)))).low = 0 := by
    omega
  obtain ⟨hokE, hlowEeq, hlowElt, hvalE⟩ :=
    finishStep_spec (finishStep (finishStep (finishStep (finishStep e))))
    ((((D ++ [e.low / 16777216]) ++ [(finishStep e).low / 16777216]) ++
      [(finishStep (finishStep e)).low / 16777216]) ++
      [(finishStep (finishStep (finishStep e))).low / 16777216]) hokD
    (by omega) (by intro h; omega)
  have hb5 : (finishStep (finishStep (finishStep (finishStep e)))).low / 16777216 = 0 := by
    omega
  rw [hb5] at hokE
  refine ⟨[e.low / 16777216, (finishStep e).low / 16777216,
    (finishStep (finishStep e)).low / 16777216,
    (finishStep (finishStep (finishStep e))).low / 16777216, 0], rfl, ?_, ?_, ?_, ?_⟩
  · have hassoc : D ++ [e.low / 16777216, (finishStep e).low / 16777216,
        (finishStep (finishStep e)).low / 16777216,
        (finishStep (finishStep (finishStep e))).low / 16777216, 0] =
        ((((D ++ [e.low / 16777216]) ++ [(finishStep e).low / 16777216]) ++
          [(finishStep (finishStep e)).low / 16777216]) ++
          [(finishStep (finishStep (finishStep e))).low / 16777216]) ++ [0] := by
      simp
    rw [hassoc]
    exact hokE
  · have hexp : rawVal [e.low / 16777216, (finishStep e).low / 16777216,
        (finishStep (finishStep e)).low / 16777216,
        (finishStep (finishStep (finishStep e))).low / 16777216, 0] =
        e.low / 16777216 * 256 ^ 4 + (finishStep e).low / 16777216 * 256 ^ 3 +
        (finishStep (finishStep e)).low / 16777216 * 256 ^ 2 +
        (finishStep (finishStep (finishStep e))).low / 16777216 * 256 := by
      show e.low / 16777216 * 256 ^ 4 + ((finishStep e).low / 16777216 * 256 ^ 3 +
        ((finishStep (finishStep e)).low / 16777216 * 256 ^ 2 +
        ((finishStep (finishStep (finishStep e))).low / 16777216 * 256 ^ 1 +
        (0 * 256 ^ 0 + 0)))) = _
      ring
    rw [hexp]
    zify at hvalA hvalB hvalC hvalD hL4 ⊢
    linear_combination (256 : ℤ) ^ 4 * hvalA + 256 ^ 3 * hvalB + 256 ^ 2 * hvalC +
      256 * hvalD - 256 * hL4
  · show (finishStep (finishStep (finishStep (finishStep (finishStep e))))).cache = 0
    have hfs : finishStep (finishStep (finishStep (finishStep (finishStep e)))) =
        { writeByteCarry (finishStep (finishStep (finishStep (finishStep e))))
            ((finishStep (finishStep (finishStep (finishStep e)))).low / 16777216) with
          low := (finishStep (finishStep (finishStep (finishStep e)))).low * 256 %
            4294967296 } := rfl
    rw [hfs, hb5]
    dsimp only
    unfold writeByteCarry
    rw [if_pos (by norm_num : (0 : ℕ) < 255)]
  · show (finishStep (finishStep (finishStep (finishStep (finishStep e))))).ffCount = 0
    have hfs : finishStep (finishStep (finishStep (finishStep (finishStep e)))) =
        { writeByteCarry (finishStep (finishStep (finishStep (finishStep e))))
            ((finishStep (finishStep (finishStep (finishStep e)))).low / 16777216) with
          low := (finishStep (finishStep (finishStep (finishStep e)))).low * 256 %
            4294967296 } := rfl
    rw [hfs, hb5]
    dsimp only
    unfold writeByteCarry
    rw [if_pos (by norm_num : (0 : ℕ) < 255)]

/-- RangeDecoder.init reads the first four bytes of the stream. -/
theorem initDecoder_spec (S : List ℕ) (h4 : 4 ≤ S.length) (hS : ∀ x ∈ S, x < 256) :
    initDecoder S =
      { range := 4294967295, code := rawVal (S.take 4), buffer := S, cursor := 4 } := by
  rcases S with _ | ⟨a, _ | ⟨b, _ | ⟨c, _ | ⟨d, rest⟩⟩⟩⟩
  · simp at h4
  · simp at h4
  · simp at h4
  · simp at h4
  have ha : a < 256 := hS a (by simp)
  have hb : b < 256 := hS b (by simp)
  have hc : c < 256 := hS c (by simp)
  have hd : d < 256 := hS d (by simp)
  show decReadByte (decReadByte (decReadByte (decReadByte _))) = _
  simp only [decReadByte, List.getD, List.length_cons]
  norm_num [rawVal, List.take]
  omega

/-- Core digit-step arithmetic of decoder renormalization: shifting in
the next stream digit turns the code for Q-remaining j+1 into the code
for Q-remaining j. -/
theorem dec_digit_step (RS C F j Q code byte : ℕ)
    (hmaster : RS * 256 * 4294967296 = C * 256 ^ (j + 1 + Q + 5) + F * 256 ^ 5)
    (hbyte : byte = RS / 256 ^ (j + Q) % 256)
    (hcode : code = F * 256 ^ 5 / (4294967296 * 256 ^ (j + 1 + Q + 1))) :
    code * 256 + byte = F * 256 ^ 5 / (4294967296 * 256 ^ (j + Q + 1)) := by
  have hRSdiv : RS / 256 ^ (j + Q) =
      C * 256 + F * 256 ^ 5 / (4294967296 * 256 ^ (j + Q + 1)) := by
    have h1 : RS / 256 ^ (j + Q) =
        RS * (256 * 4294967296) / (256 ^ (j + Q) * (256 * 4294967296)) := by
      rw [Nat.mul_div_mul_right _ _ (by norm_num : (0 : ℕ) < 256 * 4294967296)]
    have h2 : RS * (256 * 4294967296) = RS * 256 * 4294967296 := by ring
    rw [h1, h2, hmaster]
    have h3 : C * 256 ^ (j + 1 + Q + 5) + F * 256 ^ 5 =
        F * 256 ^ 5 + C * 256 * (256 ^ (j + Q) * (256 * 4294967296)) := by
      have : (4294967296 : ℕ) = 256 ^ 4 := by norm_num
      rw [this]
      ring
    rw [h3, Nat.add_mul_div_right _ _
      (by positivity : (0 : ℕ) < 256 ^ (j + Q) * (256 * 4294967296))]
    have h4 : 256 ^ (j + Q) * (256 * 4294967296) = 4294967296 * 256 ^ (j + Q + 1) := by
      ring
    rw [h4]
    ring
  have hbyteG : byte = F * 256 ^ 5 / (4294967296 * 256 ^ (j + Q + 1)) % 256 := by
    rw [hbyte, hRSdiv]
    have : C * 256 + F * 256 ^ 5 / (4294967296 * 256 ^ (j + Q + 1)) =
        F * 256 ^ 5 / (4294967296 * 256 ^ (j + Q + 1)) + C * 256 := by ring
    rw [this, Nat.add_mul_mod_self_right]
  have hcodeG : code = F * 256 ^ 5 / (4294967296 * 256 ^ (j + Q + 1)) / 256 := by
    rw [hcode, Nat.div_div_eq_div_mul]
    have : (4294967296 : ℕ) * 256 ^ (j + Q + 1) * 256 =
        4294967296 * 256 ^ (j + 1 + Q + 1) := by ring
    rw [this]
  rw [hbyteG, hcodeG]
  omega

/-- The decoder renormalization loop keeps the stream-position and
code/master invariants while consuming exactly the pending shift
digits. -/
theorem decRenorm_spec : ∀ (fuel : ℕ) (d : RangeDecoder) (Q F C : ℕ),
    (∀ x ∈ d.buffer, x < 256) →
    d.range < 4294967296 →
    d.code < d.range →
    d.cursor + (shiftCount fuel d.range + Q) = d.buffer.length →
    rawVal d.buffer * 256 * 4294967296
      = C * 256 ^ (shiftCount fuel d.range + Q + 5) + F * 256 ^ 5 →
    d.code = F * 256 ^ 5 / (4294967296 * 256 ^ (shiftCount fuel d.range + Q + 1)) →
    (decRenorm fuel d).buffer = d.buffer ∧
    (decRenorm fuel d).range = renormRangeF fuel d.range ∧
    (decRenorm fuel d).cursor + Q = d.buffer.length ∧
    (decRenorm fuel d).code = F * 256 ^ 5 / (4294967296 * 256 ^ (Q + 1)) ∧
    (decRenorm fuel d).code < (decRenorm fuel d).range ∧
    ∃ C2, rawVal d.buffer * 256 * 4294967296 = C2 * 256 ^ (Q + 5) + F * 256 ^ 5 := by
  intro fuel
  induction fuel with
  | zero =>
      intro d Q F C hS hrlt hcr hcur hmaster hcode
      have h0 : shiftCount 0 d.range = 0 := rfl
      rw [h0, Nat.zero_add] at hcur hmaster hcode
      exact ⟨rfl, rfl, hcur, hcode, hcr, C, hmaster⟩
  | succ f ih =>
      intro d Q F C hS hrlt hcr hcur hmaster hcode
      by_cases hlt : d.range < 16777216
      · have hsc : shiftCount (f + 1) d.range =
            shiftCount f (d.range * 256 % 4294967296) + 1 := by
          show (if d.range < 16777216 then _ + 1 else 0) = _
          rw [if_pos hlt]
        rw [hsc] at hcur hmaster hcode
        have hcur' : d.cursor < d.buffer.length := by omega
        have hm1 : d.code * 256 % 4294967296 = d.code * 256 :=
          Nat.mod_eq_of_lt (by omega)
        have hmr : d.range * 256 % 4294967296 = d.range * 256 :=
          Nat.mod_eq_of_lt (by omega)
        have hbyte_lt : d.buffer.getD d.cursor 0 < 256 := by
          rw [List.getD_eq_getElem d.buffer 0 hcur']
          exact hS _ (List.getElem_mem hcur')
        have hdig : d.buffer.getD d.cursor 0 =
            rawVal d.buffer / 256 ^ (d.buffer.length - 1 - d.cursor) % 256 :=
          rawVal_getD d.buffer hS d.cursor hcur'
        have hexp : d.buffer.length - 1 - d.cursor =
            shiftCount f (d.range * 256 % 4294967296) + Q := by omega
        rw [hexp] at hdig
        have hstep := dec_digit_step (rawVal d.buffer) C F
          (shiftCount f (d.range * 256 % 4294967296)) Q d.code
          (d.buffer.getD d.cursor 0) hmaster hdig hcode
        have hnext : decRenorm (f + 1) d =
            decRenorm f { decReadByte d with range := d.range * 256 % 4294967296 } := by
          show (if d.range < 16777216 then _ else d) = _
          rw [if_pos hlt]
        have hrf : renormRangeF (f + 1) d.range =
            renormRangeF f (d.range * 256 % 4294967296) := by
          show (if d.range < 16777216 then _ else d.range) = _
          rw [if_pos hlt]
        have hd1buf : ({ decReadByte d with
            range := d.range * 256 % 4294967296 } : RangeDecoder).buffer = d.buffer := rfl
        have hd1cur : ({ decReadByte d with
            range := d.range * 256 % 4294967296 } : RangeDecoder).cursor = d.cursor + 1 := by
          show (if d.cursor < d.buffer.length then d.cursor + 1 else d.cursor) = d.cursor + 1
          rw [if_pos hcur']
        have hd1code : ({ decReadByte d with
            range := d.range * 256 % 4294967296 } : RangeDecoder).code =
            d.code * 256 + d.buffer.getD d.cursor 0 := by
          show d.code * 256 % 4294967296 +
            (if d.cursor < d.buffer.length then d.buffer.getD d.cursor 0 else 0) = _
          rw [hm1, if_pos hcur']
        have hd1range : ({ decReadByte d with
            range := d.range * 256 % 4294967296 } : RangeDecoder).range =
            d.range * 256 % 4294967296 := rfl
        have hS1 : ∀ x ∈ ({ decReadByte d with
            range := d.range * 256 % 4294967296 } : RangeDecoder).buffer, x < 256 := by
          rw [hd1buf]
          exact hS
        have hrange1lt : ({ decReadByte d with
            range := d.range * 256 % 4294967296 } : RangeDecoder).range < 4294967296 := by
          rw [hd1range]
          exact Nat.mod_lt _ (by norm_num)
        have hcode1lt : ({ decReadByte d with
            range := d.range * 256 % 4294967296 } : RangeDecoder).code <
            ({ decReadByte d with range := d.range * 256 % 4294967296 } : RangeDecoder).range := by
          rw [hd1code, hd1range, hmr]
          omega
        have hcur1 : ({ decReadByte d with
            range := d.range * 256 % 4294967296 } : RangeDecoder).cursor +
            (shiftCount f ({ decReadByte d with
              range := d.range * 256 % 4294967296 } : RangeDecoder).range + Q) =
            ({ decReadByte d with
              range := d.range * 256 % 4294967296 } : RangeDecoder).buffer.length := by
          rw [hd1cur, hd1buf, hd1range]
          omega
        have hmaster1 : rawVal ({ decReadByte d with
            range := d.range * 256 % 4294967296 } : RangeDecoder).buffer * 256 * 4294967296 =
            C * 256 * 256 ^ (shiftCount f ({ decReadByte d with
              range := d.range * 256 % 4294967296 } : RangeDecoder).range + Q + 5) +
            F * 256 ^ 5 := by
          rw [hd1buf, hd1range, hmaster]
          ring
        have hcode1 : ({ decReadByte d with
            range := d.range * 256 % 4294967296 } : RangeDecoder).code =
            F * 256 ^ 5 / (4294967296 * 256 ^ (shiftCount f ({ decReadByte d with
              range := d.range * 256 % 4294967296 } : RangeDecoder).range + Q + 1)) := by
          rw [hd1code, hd1range]
          exact hstep
        obtain ⟨hB1, hB2, hB3, hB4, hB5, C2, hB6⟩ := ih
          { decReadByte d with range := d.range * 256 % 4294967296 } Q F (C * 256)
          hS1 hrange1lt hcode1lt hcur1 hmaster1 hcode1
        rw [hd1buf] at hB1 hB3 hB6
        rw [hd1range] at hB2
        rw [hnext, hrf]
        exact ⟨hB1, hB2, hB3, hB4, hB5, C2, hB6⟩
      · have hsc : shiftCount (f + 1) d.range = 0 := by
          show (if d.range < 16777216 then _ + 1 else 0) = 0
          rw [if_neg hlt]
        have hnext : decRenorm (f + 1) d = d := by
          show (if d.range < 16777216 then _ else d) = d
          rw [if_neg hlt]
        have hrf : renormRangeF (f + 1) d.range = d.range := by
          show (if d.range < 16777216 then _ else d.range) = d.range
          rw [if_neg hlt]
        rw [hsc, Nat.zero_add] at hcur hmaster hcode
        rw [hnext, hrf]
        exact ⟨rfl, rfl, hcur, hcode, hcr, C, hmaster⟩

/-- The decoder run: starting from a state carrying the encoder's
stream invariants, decoding |B| symbols returns exactly B. -/
theorem decRun_spec : ∀ (B : List ℕ) (d : RangeDecoder) (m : FrequencyModel) (C : ℕ),
    (∀ s ∈ B, s < 256) → Reachable m →
    16777216 ≤ d.range → d.range < 4294967296 →
    (∀ x ∈ d.buffer, x < 256) →
    d.cursor + (encSpec B d.range m).1 = d.buffer.length →
    rawVal d.buffer * 256 * 4294967296
      = C * 256 ^ ((encSpec B d.range m).1 + 5) + (encSpec B d.range m).2.1 * 256 ^ 5 →
    d.code = (encSpec B d.range m).2.1 * 256 ^ 5
      / (4294967296 * 256 ^ ((encSpec B d.range m).1 + 1)) →
    decRun B.length d m = B := by
  intro B
  induction B with
  | nil =>
      intro d m C hB hm hrlo hrhi hS hcur hmaster hcode
      rfl
  | cons s rest ih =>
      intro d m C hB hm hrlo hrhi hS hcur hmaster hcode
      have hs : s < 256 := hB s (List.mem_cons_self s rest)
      have hBr : ∀ x ∈ rest, x < 256 := fun x hx => hB x (List.mem_cons_of_mem s hx)
      have hMI := reachable_inv m hm
      obtain ⟨hprod, hr11, hr12, hrd1⟩ := step_arith d.range m s hm hs hrlo hrhi
      have hrff := renorm_range_facts (m.counts s * (d.range / m.total)) hr11 hr12
      have hm1 := Reachable.update m s hs hm
      have hbound := encSpec_bound rest
        (renormRangeF 4 (m.counts s * (d.range / m.total)))
        (updateModel m s) hBr hm1 hrff.2.1 hrff.2.2
      have hS1 : (encSpec (s :: rest) d.range m).1 =
          shiftCount 4 (m.counts s * (d.range / m.total)) +
            (encSpec rest (renormRangeF 4 (m.counts s * (d.range / m.total)))
              (updateModel m s)).1 := rfl
      have hS2 : (encSpec (s :: rest) d.range m).2.1 =
          cumCounts m.counts s * (d.range / m.total) *
              256 ^ (shiftCount 4 (m.counts s * (d.range / m.total)) +
                (encSpec rest (renormRangeF 4 (m.counts s * (d.range / m.total)))
                  (updateModel m s)).1) +
            (encSpec rest (renormRangeF 4 (m.counts s * (d.range / m.total)))
              (updateModel m s)).2.1 := rfl
      rw [hS1] at hcur hmaster hcode
      rw [hS2] at hmaster hcode
      have hM45 : (4294967296 : ℕ) = 256 ^ 4 := by norm_num
      have hMpos : 0 < (4294967296 : ℕ) *
          256 ^ (shiftCount 4 (m.counts s * (d.range / m.total)) +
            (encSpec rest (renormRangeF 4 (m.counts s * (d.range / m.total)))
              (updateModel m s)).1 + 1) := by positivity
      have hnum : (cumCounts m.counts s * (d.range / m.total) *
            256 ^ (shiftCount 4 (m.counts s * (d.range / m.total)) +
              (encSpec rest (renormRangeF 4 (m.counts s * (d.range / m.total)))
                (updateModel m s)).1) +
            (encSpec rest (renormRangeF 4 (m.counts s * (d.range / m.total)))
              (updateModel m s)).2.1) * 256 ^ 5 =
          (encSpec rest (renormRangeF 4 (m.counts s * (d.range / m.total)))
            (updateModel m s)).2.1 * 256 ^ 5 +
          cumCounts m.counts s * (d.range / m.total) *
            (4294967296 * 256 ^ (shiftCount 4 (m.counts s * (d.range / m.total)) +
              (encSpec rest (renormRangeF 4 (m.counts s * (d.range / m.total)))
                (updateModel m s)).1 + 1)) := by
        rw [hM45]
        ring
      have hcodesplit : d.code = cumCounts m.counts s * (d.range / m.total) +
          (encSpec rest (renormRangeF 4 (m.counts s * (d.range / m.total)))
            (updateModel m s)).2.1 * 256 ^ 5 /
          (4294967296 * 256 ^ (shiftCount 4 (m.counts s * (d.range / m.total)) +
            (encSpec rest (renormRangeF 4 (m.counts s * (d.range / m.total)))
              (updateModel m s)).1 + 1)) := by
        rw [hcode, hnum, Nat.add_mul_div_right _ _ hMpos]
        ring
      have hF'lt : (encSpec rest (renormRangeF 4 (m.counts s * (d.range / m.total)))
            (updateModel m s)).2.1 <
          renormRangeF 4 (m.counts s * (d.range / m.total)) *
            256 ^ (encSpec rest (renormRangeF 4 (m.counts s * (d.range / m.total)))
              (updateModel m s)).1 :=
        lt_of_lt_of_le (Nat.lt_add_of_pos_right (by
          have := hbound.2.1
          omega)) hbound.1
      have hGlt : (encSpec rest (renormRangeF 4 (m.counts s * (d.range / m.total)))
            (updateModel m s)).2.1 * 256 ^ 5 /
          (4294967296 * 256 ^ (shiftCount 4 (m.counts s * (d.range / m.total)) +
            (encSpec rest (renormRangeF 4 (m.counts s * (d.range / m.total)))
              (updateModel m s)).1 + 1)) <
          m.counts s * (d.range / m.total) := by
        rw [Nat.div_lt_iff_lt_mul hMpos]
        calc (encSpec rest (renormRangeF 4 (m.counts s * (d.range / m.total)))
              (updateModel m s)).2.1 * 256 ^ 5
            < renormRangeF 4 (m.counts s * (d.range / m.total)) *
                256 ^ (encSpec rest (renormRangeF 4 (m.counts s * (d.range / m.total)))
                  (updateModel m s)).1 * 256 ^ 5 :=
              mul_lt_mul_of_pos_right hF'lt (by positivity)
          _ = m.counts s * (d.range / m.total) *
              (4294967296 * 256 ^ (shiftCount 4 (m.counts s * (d.range / m.total)) +
                (encSpec rest (renormRangeF 4 (m.counts s * (d.range / m.total)))
                  (updateModel m s)).1 + 1)) := by
              rw [hrff.1, hM45]
              ring
      have hrdpos : 0 < d.range / m.total := by omega
      have hv1 : cumCounts m.counts s ≤ d.code / (d.range / m.total) := by
        rw [Nat.le_div_iff_mul_le hrdpos, hcodesplit]
        exact Nat.le_add_right _ _
      have hv2 : d.code / (d.range / m.total) <
          cumCounts m.counts s + m.counts s := by
        rw [Nat.div_lt_iff_lt_mul hrdpos, hcodesplit]
        have hexpand : (cumCounts m.counts s + m.counts s) * (d.range / m.total) =
            cumCounts m.counts s * (d.range / m.total) +
              m.counts s * (d.range / m.total) := by ring
        rw [hexpand]
        exact Nat.add_lt_add_left hGlt _
      have hgs : getSymbol m (d.code / (d.range / m.total)) =
          (s, cumCounts m.counts s, m.counts s) :=
        getSymbol_exact m hMI s hs _ hv1 hv2
      have hds : decodeStep d m =
          (s, decRenorm 4 { d with
              code := d.code - cumCounts m.counts s * (d.range / m.total),
              range := m.counts s * (d.range / m.total) },
           updateModel m s) := by
        unfold decodeStep
        rw [hgs]
      have hsubG : d.code - cumCounts m.counts s * (d.range / m.total) =
          (encSpec rest (renormRangeF 4 (m.counts s * (d.range / m.total)))
            (updateModel m s)).2.1 * 256 ^ 5 /
          (4294967296 * 256 ^ (shiftCount 4 (m.counts s * (d.range / m.total)) +
            (encSpec rest (renormRangeF 4 (m.counts s * (d.range / m.total)))
              (updateModel m s)).1 + 1)) := by
        rw [hcodesplit, Nat.add_sub_cancel_left]
      have hmaster1 : rawVal d.buffer * 256 * 4294967296 =
          (C + cumCounts m.counts s * (d.range / m.total)) *
            256 ^ (shiftCount 4 (m.counts s * (d.range / m.total)) +
              (encSpec rest (renormRangeF 4 (m.counts s * (d.range / m.total)))
                (updateModel m s)).1 + 5) +
          (encSpec rest (renormRangeF 4 (m.counts s * (d.range / m.total)))
            (updateModel m s)).2.1 * 256 ^ 5 := by
        rw [hmaster]
        ring
      obtain ⟨hD1, hD2, hD3, hD4, hD5, C2, hD6⟩ := decRenorm_spec 4
        { d with code := d.code - cumCounts m.counts s * (d.range / m.total),
                 range := m.counts s * (d.range / m.total) }
        (encSpec rest (renormRangeF 4 (m.counts s * (d.range / m.total)))
          (updateModel m s)).1
        (encSpec rest (renormRangeF 4 (m.counts s * (d.range / m.total)))
          (updateModel m s)).2.1
        (C + cumCounts m.counts s * (d.range / m.total))
        hS hr12
        (by show d.code - cumCounts m.counts s * (d.range / m.total) <
              m.counts s * (d.range / m.total)
            rw [hsubG]
            exact hGlt)
        hcur hmaster1
        (by show d.code - cumCounts m.counts s * (d.range / m.total) = _
            rw [hsubG])
      have hihr := ih (decRenorm 4
          { d with code := d.code - cumCounts m.counts s * (d.range / m.total),
                   range := m.counts s * (d.range / m.total) })
        (updateModel m s) C2 hBr hm1
        (by rw [hD2]; exact hrff.2.1)
        (by rw [hD2]; exact hrff.2.2)
        (by rw [hD1]; exact hS)
        (by rw [hD1, hD2]; exact hD3)
        (by rw [hD1, hD2]; exact hD6)
        (by rw [hD2]; exact hD4)
      have hdr : decRun (s :: rest).length d m =
          (decodeStep d m).1 ::
            decRun rest.length (decodeStep d m).2.1 (decodeStep d m).2.2 := rfl
      rw [hdr, hds]
      dsimp only
      rw [hihr]

theorem cumCounts_init (s : ℕ) (hs : s ≤ 256) : cumCounts initCounts s = s := by
  unfold cumCounts initCounts
  rw [Finset.sum_congr rfl
    (fun i hi => if_pos (lt_of_lt_of_le (Finset.mem_range.1 hi) hs))]
  simp

/-- The very first encode step from the fresh encoder and model: range
drops to 0xFFFFFF, exactly one byte (at most 0xFE) enters the carry
cache and the loop stops at range 0xFFFFFF00. -/
theorem encodeStep_init (s : ℕ) (hs : s < 256) :
    encodeStep initEncoder initModel s =
      ({ range := 4294967040, low := s * 16777215 * 256 % 4294967296,
         cache := s * 16777215 / 16777216, ffCount := 0, started := true,
         buffer := [] }, updateModel initModel s) := by
  have hinv0 : ModelInv initModel := reachable_inv initModel Reachable.init
  have hcum0 : getCum initModel s = s := by
    rw [getCum_eq initModel hinv0 s (by omega)]
    exact cumCounts_init s (by omega)
  have hcnt0 : initModel.counts s = 1 := by
    show initCounts s = 1
    unfold initCounts
    rw [if_pos hs]
  have hb : s * 16777215 / 16777216 < 255 := by omega
  unfold encodeStep getRange
  rw [hcum0, hcnt0]
  have harg : ({ initEncoder with
      low := (initEncoder.low + s * (initEncoder.range / initModel.total)) %
        18446744073709551616,
      range := 1 * (initEncoder.range / initModel.total) } : RangeEncoder) =
      { range := 16777215, low := s * 16777215, cache := 0, ffCount := 0,
        started := false, buffer := [] } := by
    have hlow : (initEncoder.low + s * (initEncoder.range / initModel.total)) %
        18446744073709551616 = s * 16777215 := by
      show (0 + s * (4294967295 / 256)) % 18446744073709551616 = s * 16777215
      omega
    have hrange : 1 * (initEncoder.range / initModel.total) = 16777215 := by
      show 1 * (4294967295 / 256) = 16777215
      norm_num
    rw [hlow, hrange]
    rfl
  rw [harg]
  have h1 : encRenorm 4 ({ range := 16777215, low := s * 16777215, cache := 0, ffCount := 0, started := false, buffer := [] } : RangeEncoder) =
      encRenorm 3 { (writeByteCarry { range := 16777215, low := s * 16777215, cache := 0, ffCount := 0, started := false, buffer := ([] : List ℕ) } (s * 16777215 / 16777216)) with
                    low := s * 16777215 * 256 % 4294967296,
                    range := 16777215 * 256 % 4294967296 } := by
    show (if (16777215 : ℕ) < 16777216 then _ else _) = _
    rw [if_pos (by norm_num : (16777215 : ℕ) < 16777216)]
  have h2 : writeByteCarry { range := 16777215, low := s * 16777215, cache := 0, ffCount := 0, started := false, buffer := ([] : List ℕ) } (s * 16777215 / 16777216) =
      { range := 16777215, low := s * 16777215, cache := s * 16777215 / 16777216, ffCount := 0, started := true, buffer := [] } := by
    unfold writeByteCarry
    rw [if_pos hb]
    rfl
  have h3 : (16777215 : ℕ) * 256 % 4294967296 = 4294967040 := by norm_num
  rw [h1, h2, h3]
  refine congrArg (fun e => (e, updateModel initModel s)) ?_
  show (if (4294967040 : ℕ) < 16777216 then _ else _) = _
  rw [if_neg (by norm_num : ¬ (4294967040 : ℕ) < 16777216)]

theorem shiftCount_init : shiftCount 4 16777215 = 1 := by
  have h0 : (16777215 : ℕ) * 256 % 4294967296 = 4294967040 := by norm_num
  have h1 : shiftCount 3 4294967040 = 0 := by
    show (if (4294967040 : ℕ) < 16777216 then _ + 1 else 0) = 0
    rw [if_neg (by norm_num : ¬ (4294967040 : ℕ) < 16777216)]
  show (if (16777215 : ℕ) < 16777216 then
    shiftCount 3 (16777215 * 256 % 4294967296) + 1 else 0) = 1
  rw [if_pos (by norm_num : (16777215 : ℕ) < 16777216), h0, h1]

theorem renormRangeF_init : renormRangeF 4 16777215 = 4294967040 := by
  have h0 : (16777215 : ℕ) * 256 % 4294967296 = 4294967040 := by norm_num
  have h1 : renormRangeF 3 4294967040 = 4294967040 := by
    show (if (4294967040 : ℕ) < 16777216 then _ else 4294967040) = 4294967040
    rw [if_neg (by norm_num : ¬ (4294967040 : ℕ) < 16777216)]
  show (if (16777215 : ℕ) < 16777216 then
    renormRangeF 3 (16777215 * 256 % 4294967296) else 16777215) = 4294967040
  rw [if_pos (by norm_num : (16777215 : ℕ) < 16777216), h0, h1]

/-- C1: Range coder round-trip: for every byte sequence B of length
N ≥ 1, range-decoding exactly N symbols from the bytes produced by the
range encoder returns B exactly, both sides starting from the
identically initialized order-0 adaptive frequency model. -/
theorem range_coder_roundtrip (B : List ℕ) (hne : B ≠ [])
    (hB : ∀ b ∈ B, b < 256) :
    gapDecompressData (gapCompressData B) B.length = B := by
  rcases B with _ | ⟨s, rest⟩
  · exact absurd rfl hne
  have hs : s < 256 := hB s (List.mem_cons_self s rest)
  have hBr : ∀ x ∈ rest, x < 256 := fun x hx => hB x (List.mem_cons_of_mem s hx)
  have hm1 : Reachable (updateModel initModel s) :=
    Reachable.update initModel s hs Reachable.init
  have hok1 : CarryOk [s * 16777215 / 16777216]
      ({ range := 4294967040, low := s * 16777215 * 256 % 4294967296, cache := s * 16777215 / 16777216, ffCount := 0, started := true, buffer := [] } : RangeEncoder) := by
    refine ⟨rfl, ?_, rfl, ?_, ?_⟩
    · show rawVal [] * 256 ^ (0 + 1) + s * 16777215 / 16777216 * 256 ^ 0 + 256 ^ 0 =
        rawVal [s * 16777215 / 16777216] + 1
      simp [rawVal]
    · intro x hx
      simp at hx
    · show s * 16777215 / 16777216 < 256
      omega
  have hinv1 : EncInv ({ range := 4294967040, low := s * 16777215 * 256 % 4294967296, cache := s * 16777215 / 16777216, ffCount := 0, started := true, buffer := [] } : RangeEncoder) := by
    refine ⟨?_, Or.inr ?_, by norm_num, by norm_num⟩
    · show s * 16777215 * 256 % 4294967296 + 4294967040 ≤ 8589934592
      omega
    · show s * 16777215 / 16777216 ≤ 254
      omega
  obtain ⟨hRm, hRinv, E, hokE, hElen, hEr, hEval⟩ :=
    encRun_spec rest
      { range := 4294967040, low := s * 16777215 * 256 % 4294967296, cache := s * 16777215 / 16777216, ffCount := 0, started := true, buffer := [] }
      (updateModel initModel s) [s * 16777215 / 16777216] hBr hm1 hinv1 hok1
  dsimp only at hElen hEr hEval
  have henc : encRun (s :: rest) (initEncoder, initModel) =
      encRun rest
        ({ range := 4294967040, low := s * 16777215 * 256 % 4294967296, cache := s * 16777215 / 16777216, ffCount := 0, started := true, buffer := [] },
         updateModel initModel s) := by
    show encRun rest (encodeStep initEncoder initModel s) = _
    rw [encodeStep_init s hs]
  obtain ⟨D5, hD5len, hokF, hD5val, hcache0, hff0⟩ :=
    finishEncoder_spec
      (encRun rest
        ({ range := 4294967040, low := s * 16777215 * 256 % 4294967296, cache := s * 16777215 / 16777216, ffCount := 0, started := true, buffer := [] },
         updateModel initModel s)).1
      ([s * 16777215 / 16777216] ++ E) hokE hRinv
  obtain ⟨hFst, hFval, hFlen, hFbytes, hFcache⟩ := hokF
  rw [hcache0, hff0] at hFval
  rw [hff0] at hFlen
  have hgc : gapCompressData (s :: rest) =
      (finishEncoder
        (encRun rest
          ({ range := 4294967040, low := s * 16777215 * 256 % 4294967296, cache := s * 16777215 / 16777216, ffCount := 0, started := true, buffer := [] },
           updateModel initModel s)).1).buffer := by
    unfold gapCompressData
    rw [henc]
  have hSval : rawVal (finishEncoder
      (encRun rest
        ({ range := 4294967040, low := s * 16777215 * 256 % 4294967296, cache := s * 16777215 / 16777216, ffCount := 0, started := true, buffer := [] },
         updateModel initModel s)).1).buffer * 256 =
      rawVal (([s * 16777215 / 16777216] ++ E) ++ D5) := by
    have h256 : (256 : ℕ) ^ (0 + 1) = 256 := by norm_num
    rw [h256] at hFval
    omega
  have hlenDall : (([s * 16777215 / 16777216] ++ E) ++ D5).length =
      1 + E.length + 5 := by
    simp [List.length_append, hD5len]
    omega
  have hSlen : (finishEncoder
      (encRun rest
        ({ range := 4294967040, low := s * 16777215 * 256 % 4294967296, cache := s * 16777215 / 16777216, ffCount := 0, started := true, buffer := [] },
         updateModel initModel s)).1).buffer.length =
      (encSpec rest 4294967040 (updateModel initModel s)).1 + 5 := by
    rw [hlenDall, hElen] at hFlen
    omega
  have hDall : rawVal (([s * 16777215 / 16777216] ++ E) ++ D5) =
      (s * 16777215 / 16777216 *
          256 ^ (encSpec rest 4294967040 (updateModel initModel s)).1 +
        rawVal E) * 256 ^ 5 + rawVal D5 := by
    rw [rawVal_append, rawVal_append, rawVal_singleton, hD5len, hElen]
  have hlowid : s * 16777215 / 16777216 * 4294967296 +
      s * 16777215 * 256 % 4294967296 = s * 16777215 * 256 := by omega
  have hmaster0 : rawVal (finishEncoder
      (encRun rest
        ({ range := 4294967040, low := s * 16777215 * 256 % 4294967296, cache := s * 16777215 / 16777216, ffCount := 0, started := true, buffer := [] },
         updateModel initModel s)).1).buffer * 256 * 4294967296 =
      (s * 16777215 * 256 ^ (1 + (encSpec rest 4294967040 (updateModel initModel s)).1) +
        (encSpec rest 4294967040 (updateModel initModel s)).2.1) * 256 ^ 5 := by
    zify at hSval hDall hEval hD5val hlowid ⊢
    linear_combination (4294967296 : ℤ) * hSval + 4294967296 * hDall +
      (256 : ℤ) ^ 5 * hEval + hD5val +
      (256 : ℤ) ^ 5 * (256 : ℤ) ^ (encSpec rest 4294967040 (updateModel initModel s)).1 * hlowid
  have hcntP : initModel.counts s = 1 := by
    show initCounts s = 1
    unfold initCounts
    rw [if_pos hs]
  have htotP : initModel.total = 256 := rfl
  have hccP : initModel.counts = initCounts := rfl
  have hdivP : (4294967295 : ℕ) / 256 = 16777215 := by norm_num
  have honeP : (1 : ℕ) * 16777215 = 16777215 := by norm_num
  have hQfull : (encSpec (s :: rest) 4294967295 initModel).1 =
      1 + (encSpec rest 4294967040 (updateModel initModel s)).1 := by
    have hU : (encSpec (s :: rest) 4294967295 initModel).1 =
        shiftCount 4 (initModel.counts s * (4294967295 / initModel.total)) +
          (encSpec rest
            (renormRangeF 4 (initModel.counts s * (4294967295 / initModel.total)))
            (updateModel initModel s)).1 := rfl
    rw [hU, hcntP, htotP, hdivP, honeP, shiftCount_init, renormRangeF_init]
  have hFF : (encSpec (s :: rest) 4294967295 initModel).2.1 =
      s * 16777215 *
          256 ^ (1 + (encSpec rest 4294967040 (updateModel initModel s)).1) +
        (encSpec rest 4294967040 (updateModel initModel s)).2.1 := by
    have hU : (encSpec (s :: rest) 4294967295 initModel).2.1 =
        cumCounts initModel.counts s * (4294967295 / initModel.total) *
            256 ^ (shiftCount 4 (initModel.counts s * (4294967295 / initModel.total)) +
              (encSpec rest
                (renormRangeF 4 (initModel.counts s * (4294967295 / initModel.total)))
                (updateModel initModel s)).1) +
          (encSpec rest
            (renormRangeF 4 (initModel.counts s * (4294967295 / initModel.total)))
            (updateModel initModel s)).2.1 := rfl
    rw [hU, hcntP, htotP, hdivP, honeP, shiftCount_init, renormRangeF_init, hccP,
      cumCounts_init s (by omega)]
  have hSbytes : ∀ x ∈ (finishEncoder
      (encRun rest
        ({ range := 4294967040, low := s * 16777215 * 256 % 4294967296, cache := s * 16777215 / 16777216, ffCount := 0, started := true, buffer := [] },
         updateModel initModel s)).1).buffer, x < 256 := hFbytes
  have hS4 : 4 ≤ (finishEncoder
      (encRun rest
        ({ range := 4294967040, low := s * 16777215 * 256 % 4294967296, cache := s * 16777215 / 16777216, ffCount := 0, started := true, buffer := [] },
         updateModel initModel s)).1).buffer.length := by
    rw [hSlen]
    omega
  have hinitdec := initDecoder_spec _ hS4 hSbytes
  have htake : rawVal ((finishEncoder
      (encRun rest
        ({ range := 4294967040, low := s * 16777215 * 256 % 4294967296, cache := s * 16777215 / 16777216, ffCount := 0, started := true, buffer := [] },
         updateModel initModel s)).1).buffer.take 4) =
      rawVal (finishEncoder
        (encRun rest
          ({ range := 4294967040, low := s * 16777215 * 256 % 4294967296, cache := s * 16777215 / 16777216, ffCount := 0, started := true, buffer := [] },
           updateModel initModel s)).1).buffer /
        256 ^ (1 + (encSpec rest 4294967040 (updateModel initModel s)).1) := by
    rw [rawVal_take _ hSbytes 4 (by omega), hSlen]
    have he : (encSpec rest 4294967040 (updateModel initModel s)).1 + 5 - 4 =
        1 + (encSpec rest 4294967040 (updateModel initModel s)).1 := by omega
    rw [he]
  have hcode0 : rawVal ((finishEncoder
      (encRun rest
        ({ range := 4294967040, low := s * 16777215 * 256 % 4294967296, cache := s * 16777215 / 16777216, ffCount := 0, started := true, buffer := [] },
         updateModel initModel s)).1).buffer.take 4) =
      (encSpec (s :: rest) 4294967295 initModel).2.1 * 256 ^ 5 /
        (4294967296 * 256 ^ ((encSpec (s :: rest) 4294967295 initModel).1 + 1)) := by
    rw [htake, hQfull, hFF]
    rw [← hmaster0]
    have hden : (4294967296 : ℕ) *
        256 ^ (1 + (encSpec rest 4294967040 (updateModel initModel s)).1 + 1) =
        256 ^ (1 + (encSpec rest 4294967040 (updateModel initModel s)).1) *
          (256 * 4294967296) := by
      ring
    rw [hden]
    have hform : rawVal (finishEncoder
        (encRun rest
          ({ range := 4294967040, low := s * 16777215 * 256 % 4294967296, cache := s * 16777215 / 16777216, ffCount := 0, started := true, buffer := [] },
           updateModel initModel s)).1).buffer * 256 * 4294967296 =
        rawVal (finishEncoder
          (encRun rest
            ({ range := 4294967040, low := s * 16777215 * 256 % 4294967296, cache := s * 16777215 / 16777216, ffCount := 0, started := true, buffer := [] },
             updateModel initModel s)).1).buffer * (256 * 4294967296) := by ring
    rw [hform, Nat.mul_div_mul_right _ _ (by norm_num : (0 : ℕ) < 256 * 4294967296)]
  have hdec := decRun_spec (s :: rest)
      { range := 4294967295,
        code := rawVal ((finishEncoder
          (encRun rest
            ({ range := 4294967040, low := s * 16777215 * 256 % 4294967296, cache := s * 16777215 / 16777216, ffCount := 0, started := true, buffer := [] },
             updateModel initModel s)).1).buffer.take 4),
        buffer := (finishEncoder
          (encRun rest
            ({ range := 4294967040, low := s * 16777215 * 256 % 4294967296, cache := s * 16777215 / 16777216, ffCount := 0, started := true, buffer := [] },
             updateModel initModel s)).1).buffer,
        cursor := 4 }
      initModel 0 hB Reachable.init
      (by show (16777216 : ℕ) ≤ 4294967295; norm_num)
      (by show (4294967295 : ℕ) < 4294967296; norm_num)
      hSbytes
      (by show 4 + (encSpec (s :: rest) 4294967295 initModel).1 = _
          rw [hQfull, hSlen]
          omega)
      (by show rawVal (finishEncoder
            (encRun rest
              ({ range := 4294967040, low := s * 16777215 * 256 % 4294967296, cache := s * 16777215 / 16777216, ffCount := 0, started := true, buffer := [] },
               updateModel initModel s)).1).buffer * 256 * 4294967296 = 0 *
            256 ^ ((encSpec (s :: rest) 4294967295 initModel).1 + 5) +
            (encSpec (s :: rest) 4294967295 initModel).2.1 * 256 ^ 5
          rw [hmaster0, hFF, Nat.zero_mul, Nat.zero_add])
      (by show rawVal ((finishEncoder
            (encRun rest
              ({ range := 4294967040, low := s * 16777215 * 256 % 4294967296, cache := s * 16777215 / 16777216, ffCount := 0, started := true, buffer := [] },
               updateModel initModel s)).1).buffer.take 4) = _
          exact hcode0)
  show decRun (s :: rest).length (initDecoder (gapCompressData (s :: rest))) initModel =
    s :: rest
  rw [hgc, hinitdec]
  exact hdec

/-- Witness for C1 at the one-byte input 72. -/
theorem range_coder_roundtrip_witness :
    ([72] : List ℕ) ≠ [] ∧ (∀ b ∈ ([72] : List ℕ), b < 256) ∧
    gapDecompressData (gapCompressData [72]) ([72] : List ℕ).length = [72] :=
  ⟨by decide, by decide,
   range_coder_roundtrip [72] (by decide) (by decide)⟩

/-! ## Container header validation (src/engine/decoder.go, DecodeImage)

The input-dependent error exits of DecodeImage are: the 28-byte
little-endian header read, the magic comparison, and (for range-coded
files) the per-plane pre-read of the five (uLen, cLen, data) stream
blocks.  Files are byte lists; float header fields are kept as their
raw 32-bit patterns, which DecodeImage's validation never inspects.
Note the Go code applies `if channels == 0 then channels = 1` and has
no membership check of Channels in the set containing 1 and 3. -/

/-- The little-endian 32-bit value at a byte offset. -/
def le32At (l : List ℕ) (off : ℕ) : ℕ :=
  l.getD off 0 + 256 * l.getD (off + 1) 0 + 65536 * l.getD (off + 2) 0 +
    16777216 * l.getD (off + 3) 0

/-- GapHeader: magic, width, height, S, Threshold, Flags, Channels
(floats as raw bit patterns). -/
structure GapHeaderM where
  magic : List ℕ
  width : ℕ
  height : ℕ
  sBits : ℕ
  tBits : ℕ
  flags : ℕ
  channels : ℕ

/-- binary.Read of the 28-byte little-endian header; none when the
file is shorter (io error). -/
def readHeader (input : List ℕ) : Option (GapHeaderM × List ℕ) :=
  if 28 ≤ input.length then
    some ({ magic := input.take 4, width := le32At input 4,
            height := le32At input 8, sBits := le32At input 12,
            tBits := le32At input 16, flags := le32At input 20,
            channels := le32At input 24 }, input.drop 28)
  else none

/-- Read one (uint32 uLen, uint32 cLen, cLen bytes) stream block;
none when io.ReadFull cannot supply cLen bytes. -/
def readBlock (l : List ℕ) : Option ((ℕ × List ℕ) × List ℕ) :=
  if 8 ≤ l.length then
    (if le32At l 4 ≤ l.length - 8 then
      some ((le32At l 0, (l.drop 8).take (le32At l 4)), l.drop (8 + le32At l 4))
    else none)
  else none

/-- Read n consecutive stream blocks (channels × 5 of them). -/
def readNBlocks : ℕ → List ℕ → Option (List (ℕ × List ℕ) × List ℕ)
  | 0, l => some ([], l)
  | n + 1, l =>
      match readBlock l with
      | none => none
      | some (blk, rest) =>
          match readNBlocks n rest with
          | none => none
          | some (blks, rest2) => some (blk :: blks, rest2)

/-- Result of DecodeImage's input-validation prefix. -/
inductive DecodeOutcome where
  | err (msg : String)
  | okRange (channels : ℕ) (blocks : List (ℕ × List ℕ))
  | okLegacy (channels : ℕ) (rest : List ℕ)
  deriving DecidableEq

/-- The input-dependent validation prefix of DecodeImage: read the
header, reject a magic mismatch, coerce channels 0 to 1 (no other
check on Channels), and for range-coded files pre-read channels×5
stream blocks.  Every error return of DecodeImage that depends on the
input file occurs in this prefix; the split-stream plane decoder never
fails (see gapDecodePlaneSplit below). -/
def decodeImageHeaderStage (input : List ℕ) : DecodeOutcome :=
  match readHeader input with
  | none => .err "failed to read header"
  | some (h, rest) =>
      if h.magic = [71, 65, 80, 1] then
        (if Nat.testBit h.flags 3 then
          (match readNBlocks ((if h.channels = 0 then 1 else h.channels) * 5) rest with
           | none => .err "failed to read stream block"
           | some (blocks, _) =>
               .okRange (if h.channels = 0 then 1 else h.channels) blocks)
        else .okLegacy (if h.channels = 0 then 1 else h.channels) rest)
      else .err "invalid magic bytes"

/-- C5 (amended, magic half): any file whose first four bytes are not
47 41 50 01 is rejected with an error. -/
theorem magic_validation (input : List ℕ)
    (hmagic : input.take 4 ≠ [71, 65, 80, 1]) :
    ∃ msg, decodeImageHeaderStage input = DecodeOutcome.err msg := by
  unfold decodeImageHeaderStage readHeader
  by_cases hlen : 28 ≤ input.length
  · rw [if_pos hlen]
    refine ⟨"invalid magic bytes", ?_⟩
    dsimp only
    rw [if_neg hmagic]
  · rw [if_neg hlen]
    exact ⟨"failed to read header", rfl⟩

/-- Witness for the amended C5 at a concrete file. -/
theorem magic_validation_witness :
    ([0, 0, 0, 0] : List ℕ).take 4 ≠ [71, 65, 80, 1] ∧
    ∃ msg, decodeImageHeaderStage [0, 0, 0, 0] = DecodeOutcome.err msg :=
  ⟨by decide, magic_validation [0, 0, 0, 0] (by decide)⟩

/-- A well-formed range-coded file whose Channels field is 2 ∉ {1,3}:
valid magic, width = height = 0, flags = 8 (range coded), channels = 2,
followed by 2 planes × 5 streams of empty (uLen = 0, cLen = 0) blocks. -/
def badChannelsFile : List ℕ :=
  [71, 65, 80, 1] ++ [0, 0, 0, 0] ++ [0, 0, 0, 0] ++ [0, 0, 0, 0] ++
    [0, 0, 0, 0] ++ [8, 0, 0, 0] ++ [2, 0, 0, 0] ++ List.replicate 80 0

/-- C5 counterexample: DecodeImage does not validate Channels ∈ {1,3} —
the file with Channels = 2 passes the whole validation prefix (and the
later stages of DecodeImage have no input-dependent error return), so
the decode does not fail with InputInvalid. -/
theorem channels_not_validated :
    decodeImageHeaderStage badChannelsFile =
      DecodeOutcome.okRange 2 (List.replicate 10 (0, [])) := by
  decide

/-! ## Split-stream plane decoder (src/engine/decoder.go, gapDecodePlaneSplit)

The decoder is embedded strictly: every stream read and every array
write goes through an Option-valued bounds-checked access, so the
totality theorem below shows the source's guards make every access
in-bounds for arbitrary (truncated or corrupt) streams.  The two
functions crossing the CGO boundary are abstracted as parameters:
f32FromBits (math.Float32frombits) and decompress
(GapDecompressPatches, the Zig inverse patch transform, which by its C
ABI writes exactly 64 floats per patch and cannot fail). -/

/-- Go int8(b) of a byte: two's-complement value in [-128, 127]. -/
def int8OfByte (b : ℕ) : ℤ :=
  if b % 256 < 128 then (b % 256 : ℤ) else (b % 256 : ℤ) - 256

/-- Bounds-checked write into a function modelling a slice of the given
size (none = the source would have indexed out of bounds). -/
def setF {α : Type} (size : ℕ) (f : ℕ → α) (i : ℕ) (v : α) : Option (ℕ → α) :=
  if i < size then some (Function.update f i v) else none

/-- Bounds-checked write into the pixel array. -/
def setPix (pix : List ℕ) (i v : ℕ) : Option (List ℕ) :=
  if i < pix.length then some (pix.set i v) else none

/-- Strict little-endian uint32 read: all four bytes must exist. -/
def readLE32Strict (l : List ℕ) (off : ℕ) : Option ℕ :=
  match l.get? off, l.get? (off + 1), l.get? (off + 2), l.get? (off + 3) with
  | some b0, some b1, some b2, some b3 =>
      some (b0 + 256 * b1 + 65536 * b2 + 16777216 * b3)
  | _, _, _, _ => none

/-- Clamp a reconstructed sample to [0,1] and convert to uint8 via
val*255.0 (truncation toward zero). -/
def pixByte (v : ℚ) : ℕ :=
  (ratTrunc ((if v < 0 then 0 else if v > 1 then 1 else v) * 255)).toNat

/-- The mutable state of the sequential parse stage. -/
structure SplitParseState where
  ptrA : ℕ
  ptrC : ℕ
  ptrMax : ℕ
  ptrIdx : ℕ
  ptrVal : ℕ
  pIdx : ℕ
  allCoeffs : ℕ → ℚ
  allAngles : ℕ → ℝ
  coords : ℕ → ℕ × ℕ

/-- The per-patch coefficient loop (k = 0 .. count-1): stop early when
Indices or Values is exhausted; read one index byte and two value
bytes; scatter the dequantized pair into the patch's 128-float slice
when the bin index is < 64, silently discarding other indices. -/
def coeffLoop (indices values : List ℕ) (numPatches pIdx : ℕ) (mv : ℚ) :
    ℕ → ℕ × ℕ × (ℕ → ℚ) → Option (ℕ × ℕ × (ℕ → ℚ))
  | 0, acc => some acc
  | k + 1, (ptrIdx, ptrVal, coeffs) =>
      if ptrIdx ≥ indices.length ∨ ptrVal + 1 ≥ values.length then
        some (ptrIdx, ptrVal, coeffs)
      else
        match indices.get? ptrIdx, values.get? ptrVal, values.get? (ptrVal + 1) with
        | some idx, some bRe, some bIm =>
            if idx < 64 then
              match setF (numPatches * 128) coeffs (pIdx * 128 + 2 * idx)
                  ((int8OfByte bRe : ℚ) / 127 * mv) with
              | none => none
              | some c1 =>
                  match setF (numPatches * 128) c1 (pIdx * 128 + 2 * idx + 1)
                      ((int8OfByte bIm : ℚ) / 127 * mv) with
                  | none => none
                  | some c2 =>
                      coeffLoop indices values numPatches pIdx mv k
                        (ptrIdx + 1, ptrVal + 2, c2)
            else
              coeffLoop indices values numPatches pIdx mv k
                (ptrIdx + 1, ptrVal + 2, coeffs)
        | _, _, _ => none

/-- Parse one patch at grid position (x, y): consume the angle and
count bytes, record angle and coordinates, read the 4-byte MaxVal when
available (default 1.0), then run the coefficient loop. -/
noncomputable def parsePatch (f32FromBits : ℕ → ℚ)
    (angles counts maxVals indices values : List ℕ)
    (numPatches x y : ℕ) (st : SplitParseState) : Option SplitParseState :=
  match angles.get? st.ptrA, counts.get? st.ptrC with
  | some byteAngle, some byteCount =>
      match setF numPatches st.allAngles st.pIdx
          ((byteAngle : ℝ) / 255 * (2 * Real.pi)),
        setF numPatches st.coords st.pIdx (x, y) with
      | some allAngles2, some coords2 =>
          (if st.ptrMax + 4 ≤ maxVals.length then
            match readLE32Strict maxVals st.ptrMax with
            | none => none
            | some bits =>
                match coeffLoop indices values numPatches st.pIdx
                    (f32FromBits bits) byteCount
                    (st.ptrIdx, st.ptrVal, st.allCoeffs) with
                | none => none
                | some (ptrIdx2, ptrVal2, coeffs2) =>
                    some { ptrA := st.ptrA + 1, ptrC := st.ptrC + 1,
                           ptrMax := st.ptrMax + 4, ptrIdx := ptrIdx2,
                           ptrVal := ptrVal2, pIdx := st.pIdx + 1,
                           allCoeffs := coeffs2, allAngles := allAngles2,
                           coords := coords2 }
          else
            match coeffLoop indices values numPatches st.pIdx 1 byteCount
                (st.ptrIdx, st.ptrVal, st.allCoeffs) with
            | none => none
            | some (ptrIdx2, ptrVal2, coeffs2) =>
                some { ptrA := st.ptrA + 1, ptrC := st.ptrC + 1,
                       ptrMax := st.ptrMax, ptrIdx := ptrIdx2,
                       ptrVal := ptrVal2, pIdx := st.pIdx + 1,
                       allCoeffs := coeffs2, allAngles := allAngles2,
                       coords := coords2 })
      | _, _ => none
  | _, _ => none

/-- The inner x-loop of the parse stage: before each patch, break out
of the row when Angles or Counts is exhausted or all patches are
filled. -/
noncomputable def parseRow (f32FromBits : ℕ → ℚ)
    (angles counts maxVals indices values : List ℕ)
    (numPatches y : ℕ) : List ℕ → SplitParseState → Option SplitParseState
  | [], st => some st
  | x :: xs, st =>
      if st.ptrA ≥ angles.length ∨ st.ptrC ≥ counts.length ∨
          st.pIdx ≥ numPatches then
        some st
      else
        match parsePatch f32FromBits angles counts maxVals indices values
            numPatches x y st with
        | none => none
        | some st2 =>
            parseRow f32FromBits angles counts maxVals indices values
              numPatches y xs st2

/-- The outer y-loop of the parse stage. -/
noncomputable def parseAll (f32FromBits : ℕ → ℚ)
    (angles counts maxVals indices values : List ℕ)
    (numPatches : ℕ) (xList : List ℕ) :
    List ℕ → SplitParseState → Option SplitParseState
  | [], st => some st
  | y :: ys, st =>
      match parseRow f32FromBits angles counts maxVals indices values
          numPatches y xList st with
      | none => none
      | some st2 =>
          parseAll f32FromBits angles counts maxVals indices values
            numPatches xList ys st2

/-- Write one 8-pixel row of a reconstructed patch into the plane,
skipping pixels that fall outside the width×height image. -/
def writeRow (width height x y py : ℕ) (patch : ℕ → ℚ) :
    List ℕ → List ℕ → Option (List ℕ)
  | [], pix => some pix
  | px :: pxs, pix =>
      if x + px < width ∧ y + py < height then
        match setPix pix ((y + py) * width + (x + px))
            (pixByte (patch (py * 8 + px))) with
        | none => none
        | some p2 => writeRow width height x y py patch pxs p2
      else writeRow width height x y py patch pxs pix

/-- Write a full reconstructed 8×8 patch into the plane. -/
def writePatch (width height x y : ℕ) (patch : ℕ → ℚ) :
    List ℕ → List ℕ → Option (List ℕ)
  | [], pix => some pix
  | py :: pys, pix =>
      match writeRow width height x y py patch (List.range 8) pix with
      | none => none
      | some p2 => writePatch width height x y patch pys p2

/-- The reconstruction stage over the parsed patches 0 .. pIdx-1
(the worker partition is irrelevant: each patch writes a disjoint
pixel rectangle, so the sequential order models every partition). -/
noncomputable def reconstructLoop
    (decompress : (ℕ → ℚ) → ℝ → ℝ → ℕ → ℚ) (sVal : ℝ)
    (width height : ℕ) (st : SplitParseState) :
    List ℕ → List ℕ → Option (List ℕ)
  | [], pix => some pix
  | i :: is, pix =>
      match writePatch width height (st.coords i).1 (st.coords i).2
          (decompress (fun u => st.allCoeffs (i * 128 + u)) (st.allAngles i) sVal)
          (List.range 8) pix with
      | none => none
      | some p2 => reconstructLoop decompress sVal width height st is p2

/-- gapDecodePlaneSplit: pad the plane dimensions to multiples of 8,
run the sequential parse stage over the patch grid in raster order,
then reconstruct every parsed patch into the initVal-filled
width×height pixel array. -/
noncomputable def gapDecodePlaneSplit (f32FromBits : ℕ → ℚ)
    (decompress : (ℕ → ℚ) → ℝ → ℝ → ℕ → ℚ)
    (angles counts maxVals indices values : List ℕ)
    (width height flags initVal : ℕ) (sVal : ℝ) : Option (List ℕ) :=
  match parseAll f32FromBits angles counts maxVals indices values
      (((width + 7) / 8 * 8) / 8 * (((height + 7) / 8 * 8) / 8))
      ((List.range (((width + 7) / 8 * 8) / 8)).map (fun i => i * 8))
      ((List.range (((height + 7) / 8 * 8) / 8)).map (fun i => i * 8))
      { ptrA := 0, ptrC := 0, ptrMax := 0, ptrIdx := 0, ptrVal := 0,
        pIdx := 0, allCoeffs := fun _ => 0, allAngles := fun _ => 0,
        coords := fun _ => (0, 0) } with
  | none => none
  | some st =>
      reconstructLoop decompress sVal width height st
        (List.range st.pIdx) (List.replicate (width * height) initVal)

theorem coeffLoop_some (indices values : List ℕ) (numPatches pIdx : ℕ) (mv : ℚ)
    (hp : pIdx < numPatches) :
    ∀ (k ptrIdx ptrVal : ℕ) (coeffs : ℕ → ℚ),
      ∃ r, coeffLoop indices values numPatches pIdx mv k
        (ptrIdx, ptrVal, coeffs) = some r := by
  intro k
  induction k with
  | zero =>
      intro ptrIdx ptrVal coeffs
      exact ⟨_, rfl⟩
  | succ k ih =>
      intro ptrIdx ptrVal coeffs
      unfold coeffLoop
      by_cases hb : ptrIdx ≥ indices.length ∨ ptrVal + 1 ≥ values.length
      · rw [if_pos hb]
        exact ⟨_, rfl⟩
      · rw [if_neg hb]
        push_neg at hb
        obtain ⟨hbi, hbv⟩ := hb
        rw [List.get?_eq_get hbi,
          List.get?_eq_get (by omega : ptrVal < values.length),
          List.get?_eq_get hbv]
        dsimp only
        by_cases hidx : indices.get ⟨ptrIdx, hbi⟩ < 64
        · rw [if_pos hidx]
          have hset1 : pIdx * 128 + 2 * indices.get ⟨ptrIdx, hbi⟩ <
              numPatches * 128 := by omega
          have hset2 : pIdx * 128 + 2 * indices.get ⟨ptrIdx, hbi⟩ + 1 <
              numPatches * 128 := by omega
          unfold setF
          rw [if_pos hset1]
          dsimp only
          rw [if_pos hset2]
          dsimp only
          exact ih (ptrIdx + 1) (ptrVal + 2) _
        · rw [if_neg hidx]
          exact ih (ptrIdx + 1) (ptrVal + 2) coeffs

theorem parsePatch_some (f32FromBits : ℕ → ℚ)
    (angles counts maxVals indices values : List ℕ)
    (numPatches x y : ℕ) (st : SplitParseState)
    (hA : st.ptrA < angles.length) (hC : st.ptrC < counts.length)
    (hP : st.pIdx < numPatches) :
    ∃ st2, parsePatch f32FromBits angles counts maxVals indices values
      numPatches x y st = some st2 := by
  unfold parsePatch
  rw [List.get?_eq_get hA, List.get?_eq_get hC]
  dsimp only
  unfold setF
  rw [if_pos hP, if_pos hP]
  dsimp only
  by_cases hM : st.ptrMax + 4 ≤ maxVals.length
  · rw [if_pos hM]
    unfold readLE32Strict
    rw [List.get?_eq_get (by omega : st.ptrMax < maxVals.length),
      List.get?_eq_get (by omega : st.ptrMax + 1 < maxVals.length),
      List.get?_eq_get (by omega : st.ptrMax + 2 < maxVals.length),
      List.get?_eq_get (by omega : st.ptrMax + 3 < maxVals.length)]
    dsimp only
    obtain ⟨r, hr⟩ := coeffLoop_some indices values numPatches st.pIdx _ hP
      (counts.get ⟨st.ptrC, hC⟩) st.ptrIdx st.ptrVal st.allCoeffs
    rcases r with ⟨p1, p2, c2⟩
    rw [hr]
    exact ⟨_, rfl⟩
  · rw [if_neg hM]
    obtain ⟨r, hr⟩ := coeffLoop_some indices values numPatches st.pIdx 1 hP
      (counts.get ⟨st.ptrC, hC⟩) st.ptrIdx st.ptrVal st.allCoeffs
    rcases r with ⟨p1, p2, c2⟩
    rw [hr]
    exact ⟨_, rfl⟩

theorem parseRow_some (f32FromBits : ℕ → ℚ)
    (angles counts maxVals indices values : List ℕ) (numPatches y : ℕ) :
    ∀ (xs : List ℕ) (st : SplitParseState),
      ∃ st2, parseRow f32FromBits angles counts maxVals indices values
        numPatches y xs st = some st2 := by
  intro xs
  induction xs with
  | nil =>
      intro st
      exact ⟨st, rfl⟩
  | cons x xs ih =>
      intro st
      unfold parseRow
      by_cases hb : st.ptrA ≥ angles.length ∨ st.ptrC ≥ counts.length ∨
          st.pIdx ≥ numPatches
      · rw [if_pos hb]
        exact ⟨st, rfl⟩
      · rw [if_neg hb]
        push_neg at hb
        obtain ⟨h1, h2, h3⟩ := hb
        obtain ⟨st2, hst2⟩ := parsePatch_some f32FromBits angles counts maxVals
          indices values numPatches x y st h1 h2 h3
        rw [hst2]
        exact ih st2

theorem parseAll_some (f32FromBits : ℕ → ℚ)
    (angles counts maxVals indices values : List ℕ)
    (numPatches : ℕ) (xList : List ℕ) :
    ∀ (ys : List ℕ) (st : SplitParseState),
      ∃ st2, parseAll f32FromBits angles counts maxVals indices values
        numPatches xList ys st = some st2 := by
  intro ys
  induction ys with
  | nil =>
      intro st
      exact ⟨st, rfl⟩
  | cons y ys ih =>
      intro st
      unfold parseAll
      obtain ⟨st2, hst2⟩ := parseRow_some f32FromBits angles counts maxVals
        indices values numPatches y xList st
      rw [hst2]
      exact ih st2

theorem writeRow_some (width height x y py : ℕ) (patch : ℕ → ℚ) :
    ∀ (pxs : List ℕ) (pix : List ℕ), pix.length = width * height →
      ∃ p2, writeRow width height x y py patch pxs pix = some p2 ∧
        p2.length = width * height := by
  intro pxs
  induction pxs with
  | nil =>
      intro pix hlen
      exact ⟨pix, rfl, hlen⟩
  | cons px pxs ih =>
      intro pix hlen
      unfold writeRow
      by_cases hb : x + px < width ∧ y + py < height
      · rw [if_pos hb]
        have hmul1 : (y + py + 1) * width ≤ height * width :=
          Nat.mul_le_mul_right width (Nat.succ_le_of_lt hb.2)
        have hmul2 : (y + py + 1) * width = (y + py) * width + width := by
          ring
        have hmul3 : width * height = height * width := Nat.mul_comm _ _
        have hin : (y + py) * width + (x + px) < pix.length := by
          rw [hlen]
          omega
        unfold setPix
        rw [if_pos hin]
        dsimp only
        exact ih _ (by rw [List.length_set]; exact hlen)
      · rw [if_neg hb]
        exact ih pix hlen

theorem writePatch_some (width height x y : ℕ) (patch : ℕ → ℚ) :
    ∀ (pys : List ℕ) (pix : List ℕ), pix.length = width * height →
      ∃ p2, writePatch width height x y patch pys pix = some p2 ∧
        p2.length = width * height := by
  intro pys
  induction pys with
  | nil =>
      intro pix hlen
      exact ⟨pix, rfl, hlen⟩
  | cons py pys ih =>
      intro pix hlen
      unfold writePatch
      obtain ⟨p2, hp2, hlen2⟩ := writeRow_some width height x y py patch
        (List.range 8) pix hlen
      rw [hp2]
      exact ih p2 hlen2

theorem reconstructLoop_some (decompress : (ℕ → ℚ) → ℝ → ℝ → ℕ → ℚ)
    (sVal : ℝ) (width height : ℕ) (st : SplitParseState) :
    ∀ (is : List ℕ) (pix : List ℕ), pix.length = width * height →
      ∃ p2, reconstructLoop decompress sVal width height st is pix = some p2 ∧
        p2.length = width * height := by
  intro is
  induction is with
  | nil =>
      intro pix hlen
      exact ⟨pix, rfl, hlen⟩
  | cons i is ih =>
      intro pix hlen
      unfold reconstructLoop
      obtain ⟨p2, hp2, hlen2⟩ := writePatch_some width height
        (st.coords i).1 (st.coords i).2
        (decompress (fun u => st.allCoeffs (i * 128 + u)) (st.allAngles i) sVal)
        (List.range 8) pix hlen
      rw [hp2]
      exact ih p2 hlen2

/-- C10: the split-stream plane decoder is total on arbitrary stream
contents.  Every stream read and array write in the embedding is
bounds-checked (strict), and for all five byte streams — truncated or
corrupt — the decoder succeeds and returns a pixel array of exactly
width·height bytes, never an error.  f32FromBits and decompress
abstract the two total functions crossing the CGO boundary. -/
theorem split_decoder_total (f32FromBits : ℕ → ℚ)
    (decompress : (ℕ → ℚ) → ℝ → ℝ → ℕ → ℚ)
    (angles counts maxVals indices values : List ℕ)
    (width height flags initVal : ℕ) (sVal : ℝ) :
    ∃ pix, gapDecodePlaneSplit f32FromBits decompress angles counts maxVals
        indices values width height flags initVal sVal = some pix ∧
      pix.length = width * height := by
  unfold gapDecodePlaneSplit
  obtain ⟨st, hst⟩ := parseAll_some f32FromBits angles counts maxVals indices
    values (((width + 7) / 8 * 8) / 8 * (((height + 7) / 8 * 8) / 8))
    ((List.range (((width + 7) / 8 * 8) / 8)).map (fun i => i * 8))
    ((List.range (((height + 7) / 8 * 8) / 8)).map (fun i => i * 8))
    { ptrA := 0, ptrC := 0, ptrMax := 0, ptrIdx := 0, ptrVal := 0,
      pIdx := 0, allCoeffs := fun _ => 0, allAngles := fun _ => 0,
      coords := fun _ => (0, 0) }
  rw [hst]
  exact reconstructLoop_some decompress sVal width height st
    (List.range st.pIdx) (List.replicate (width * height) initVal)
    (List.length_replicate _ _)

end GAP
